import Mathlib

/-!
Shallow embedding of the hierarchical task-store subsystem
(src/tasks5/task5/src): the Task entity with its validators
(models/task.py), the store serialization layer (models/task_store.py),
the service operations (services/task_service.py) and the keyword search
(services/search_service.py).

Conventions of the embedding:
- Python exceptions become the `Except Err` monad; `Err.validation`
  models ValidationError, `Err.notFound` models TaskNotFoundError and
  `Err.fatal` models an uncaught runtime failure such as RecursionError.
- Python strings are Lean `String`s; Python `len` counts code points, so
  it is modelled by `String.data.length`.  Python `str.strip` and
  `str.lower` are modelled explicitly on the character list (`pyStrip`,
  `pyLower`) over the ASCII whitespace set Python uses.
- `uuid.uuid4()` and `datetime.utcnow().isoformat()` are effectful; the
  embedding threads the generated strings in as explicit arguments
  (`freshId`, `freshTime`).
- Python truthiness of an optional string (None and the empty string are
  falsy) is modelled by `pyTruthy`.
- Unbounded `while` loops and the unbounded recursion of
  `collect_subtasks` are modelled with an explicit fuel argument large
  enough that exhausting it corresponds exactly to a run that Python
  could only end by blowing the recursion limit (a crash, hence a
  non-successful operation, modelled by `Err.fatal`).
-/

namespace Task5

/-- Python character-level helpers: the default whitespace set stripped by
`str.strip`. -/
def isPySpace (c : Char) : Bool :=
  c = ' ' || c = '\t' || c = '\n' || c = '\r' || c = '\x0b' || c = '\x0c'

/-- Model of Python `str.strip()`: drop leading and trailing whitespace. -/
def pyStrip (s : String) : String :=
  String.mk (((s.data.dropWhile isPySpace).reverse.dropWhile isPySpace).reverse)

/-- Model of Python `str.lower()` on ASCII data. -/
def pyLower (s : String) : String :=
  String.mk (s.data.map Char.toLower)

/-- Model of Python `len` on strings (number of code points). -/
def pyLen (s : String) : Nat :=
  s.data.length

/-- Model of Python slicing `s[:n]`. -/
def pyTake (s : String) (n : Nat) : String :=
  String.mk (s.data.take n)

/-- Truthiness of an optional Python string: `None` and `""` are falsy. -/
def pyTruthy (o : Option String) : Option String :=
  match o with
  | none => none
  | some s => if s = "" then none else some s

/-- Python `a or b` for an optional string `a` with default `b`. -/
def pyOr (a : Option String) (b : String) : String :=
  match a with
  | none => b
  | some s => if s = "" then b else s

/-- Optional string seen as a plain string, mapping `None` to `""`; used
where Python assigns `current_id = task.parent_id` inside a loop whose
guard treats `None` and `""` alike. -/
def optStr (o : Option String) : String :=
  match o with
  | none => ""
  | some s => s

/-- Decides whether `p` is a prefix of `l` (Python `str.startswith`). -/
def startsWithList (p l : List Char) : Bool :=
  match p, l with
  | [], _ => true
  | _ :: _, [] => false
  | a :: as, b :: bs => a = b && startsWithList as bs

/-- Decides whether `n` occurs as a contiguous substring of `h`
(Python `needle in haystack`). -/
def containsSub (n h : List Char) : Bool :=
  startsWithList n h ||
    match h with
    | [] => false
    | _ :: t => containsSub n t

/-- Lexicographic strict comparison of character lists (Python string `<`). -/
def listLt (a b : List Char) : Bool :=
  match a, b with
  | [], [] => false
  | [], _ :: _ => true
  | _ :: _, [] => false
  | x :: xs, y :: ys => x < y || (x = y && listLt xs ys)

/-- Error taxonomy of the service layer: `validation` is ValidationError
(exit code 1), `notFound` is TaskNotFoundError (exit code 2), `fatal` is
an uncaught runtime error such as RecursionError. -/
inductive Err where
  | validation : String → Err
  | notFound : String → Err
  | fatal : String → Err
deriving Repr, DecidableEq

/-- The Task entity (models/task.py): seven persisted fields. -/
structure Task where
  id : String
  description : String
  completed : Bool
  priority : String
  created_at : String
  parent_id : Option String
  subtasks : List String
deriving Repr, DecidableEq

/-- VALID_PRIORITIES from models/task.py. -/
def VALID_PRIORITIES : List String := ["high", "medium", "low"]

/-- MAX_DESCRIPTION_LENGTH from models/task.py. -/
def MAX_DESCRIPTION_LENGTH : Nat := 500

/-- MAX_DEPTH from models/task.py. -/
def MAX_DEPTH : Nat := 3

def msgDescEmpty : String := "Task description cannot be empty"

def msgDescTooLong : String :=
  "Task description cannot exceed 500 characters"

/-- Message of the invalid-priority ValidationError; the source quotes the
priority with apostrophes, elided here. -/
def msgInvalidPriority (p : String) : String :=
  "Invalid priority " ++ p ++ ". Must be one of: high, medium, low"

def msgCircular : String :=
  "Circular dependency detected: task cannot be its own ancestor"

def msgMaxDepth (n : Nat) : String :=
  "Maximum task depth of " ++ toString n ++ " levels would be exceeded"

/-- Message of the ambiguous-id ValidationError; the source quotes the id
with apostrophes, elided here. -/
def msgAmbiguous (s : String) : String :=
  "Ambiguous task ID " ++ s ++ ": matches multiple tasks"

def msgParentNotFound (p : String) : String :=
  "Parent task not found: " ++ p

def msgTaskNotFound (s : String) : String :=
  "Task not found: " ++ s

def msgKeywordEmpty : String := "Keywords cannot be empty"

def msgKeywordTooLong : String :=
  "Keyword exceeds maximum length of 100 characters"

def msgRecursion : String := "maximum recursion depth exceeded"

/-- Task._validate_description: empty-after-strip check first, then the
length check on the raw (unstripped) string, returning the stripped
string on success. -/
def validateDescription (description : String) : Except Err String :=
  if pyStrip description = "" then
    .error (.validation msgDescEmpty)
  else if MAX_DESCRIPTION_LENGTH < pyLen description then
    .error (.validation msgDescTooLong)
  else
    .ok (pyStrip description)

/-- Task._validate_priority: membership in VALID_PRIORITIES. -/
def validatePriority (priority : String) : Except Err String :=
  if priority ∈ VALID_PRIORITIES then .ok priority
  else .error (.validation (msgInvalidPriority priority))

/-- Task.__init__ with all keyword arguments explicit.  `freshId` and
`freshTime` stand for the `uuid.uuid4()` and `datetime.utcnow()`
calls used when `task_id`/`created_at` are falsy.  Description is
validated before priority, as in the source. -/
def Task.make (freshId freshTime description : String)
    (task_id : Option String) (completed : Bool) (priority : String)
    (created_at : Option String) (parent_id : Option String)
    (subtasks : List String) : Except Err Task := do
  let d ← validateDescription description
  let p ← validatePriority priority
  .ok { id := pyOr task_id freshId
        description := d
        completed := completed
        priority := p
        created_at := pyOr created_at freshTime
        parent_id := parent_id
        subtasks := subtasks }

/-- Serialized record of one task (Task.to_dict / the JSON object in the
store file); fields that deserialization reads with `.get` are optional. -/
structure TaskDict where
  id : String
  description : String
  completed : Option Bool
  priority : Option String
  created_at : Option String
  parent_id : Option String
  subtasks : Option (List String)
deriving Repr, DecidableEq

def defaultPriority : String := "medium"

/-- Task.to_dict: all seven fields are emitted. -/
def Task.toDict (t : Task) : TaskDict :=
  { id := t.id
    description := t.description
    completed := some t.completed
    priority := some t.priority
    created_at := t.created_at
    parent_id := t.parent_id
    subtasks := some t.subtasks }

/-- Task.from_dict: required `description`/`id`, `.get` defaults for the
rest, then the validating constructor. -/
def Task.fromDict (freshId freshTime : String) (d : TaskDict) :
    Except Err Task :=
  Task.make freshId freshTime d.description (some d.id)
    (d.completed.getD false) (d.priority.getD defaultPriority)
    d.created_at d.parent_id (d.subtasks.getD [])

/-- Model of the Python dict comprehension `{t.id: t for t in all_tasks}`:
on duplicate ids the LAST binding wins. -/
def taskMapGet (tasks : List Task) (i : String) : Option Task :=
  (tasks.filter (fun t => t.id == i)).getLast?

/-- Loop body of Task.validate_circular_dependency: walk the ancestor
chain from `current`, failing if `taskId` is met, bailing out on a
visited-set repeat or an unresolvable id.  `fuel` bounds the iteration
count; the visited set guarantees the Python loop ends within
`tasks.length + 2` iterations, so the fuel used below never runs out. -/
def circLoop (taskId : Option String) (tasks : List Task) :
    Nat → List String → String → Except Err Unit
  | 0, _, _ => .ok ()
  | Nat.succ fuel, visited, current =>
    if current = "" then .ok ()
    else if taskId = some current then .error (.validation msgCircular)
    else if current ∈ visited then .ok ()
    else
      match taskMapGet tasks current with
      | none => .ok ()
      | some t => circLoop taskId tasks fuel (current :: visited) (optStr t.parent_id)

/-- Task.validate_circular_dependency. -/
def validate_circular_dependency (taskId : Option String)
    (parentId : Option String) (tasks : List Task) : Except Err Unit :=
  match pyTruthy parentId with
  | none => .ok ()
  | some p => circLoop taskId tasks (tasks.length + 2) [] p

/-- Loop of Task.validate_depth: while `current` is truthy and
`depth < maxDepth`, step to the parent and increment `depth`; returns the
final depth.  The loop runs at most `maxDepth - 1` times since `depth`
increases each iteration, so fuel `maxDepth` is never the reason it
stops. -/
def depthLoop (tasks : List Task) (maxDepth : Nat) :
    Nat → Nat → String → Nat
  | 0, depth, _ => depth
  | Nat.succ fuel, depth, current =>
    if current ≠ "" ∧ depth < maxDepth then
      match taskMapGet tasks current with
      | none => depth
      | some t => depthLoop tasks maxDepth fuel (depth + 1) (optStr t.parent_id)
    else depth

/-- Task.validate_depth. -/
def validate_depth (parentId : Option String) (tasks : List Task)
    (maxDepth : Nat) : Except Err Unit :=
  match pyTruthy parentId with
  | none => .ok ()
  | some p =>
    if maxDepth ≤ depthLoop tasks maxDepth maxDepth 1 p then
      .error (.validation (msgMaxDepth maxDepth))
    else .ok ()

/-- TaskService.find_task: exact id match first; otherwise, for queries of
at least 8 characters, a unique-prefix match on the first 8 characters. -/
def find_task (task_id : String) (tasks : List Task) :
    Except Err (Option Task) :=
  match tasks.find? (fun t => t.id == task_id) with
  | some t => .ok (some t)
  | none =>
    if 8 ≤ pyLen task_id then
      let matched := tasks.filter
        (fun t => startsWithList (pyTake task_id 8).data t.id.data)
      if matched.length = 1 then .ok matched.head?
      else if 1 < matched.length then
        .error (.validation (msgAmbiguous task_id))
      else .ok none
    else .ok none

/-- Appends `newId` to the subtasks of the first task whose id is `p`
(the `for t in tasks: if t.id == parent_id: ...; break` loop of
add_task). -/
def appendToParent (p newId : String) : List Task → List Task
  | [] => []
  | t :: ts =>
    if t.id = p then { t with subtasks := t.subtasks ++ [newId] } :: ts
    else t :: appendToParent p newId ts

/-- TaskService.add_task.  The loaded collection is the `tasks` argument
and the saved collection is returned alongside the created task. -/
def add_task (freshId freshTime description priority : String)
    (parent_id : Option String) (tasks : List Task) :
    Except Err (List Task × Task) := do
  let pid ←
    match pyTruthy parent_id with
    | none => pure (none : Option String)
    | some p => do
      match ← find_task p tasks with
      | none => Except.error (.notFound (msgParentNotFound p))
      | some parent => do
        validate_circular_dependency none (some parent.id) tasks
        validate_depth (some parent.id) tasks MAX_DEPTH
        pure (some parent.id)
  let task ← Task.make freshId freshTime description none false priority
    none pid []
  let tasks :=
    match pyTruthy pid with
    | none => tasks
    | some p => appendToParent p task.id tasks
  .ok (tasks ++ [task], task)

/-- priority_order from list_tasks; every constructed Task has a
validated priority, so the residual branch is unreachable on reachable
collections. -/
def priorityRank (p : String) : Nat :=
  if p = "high" then 0 else if p = "medium" then 1 else 2

/-- Sort key of list_tasks. -/
def sortKey (t : Task) : Nat × String :=
  (priorityRank t.priority, t.created_at)

/-- Strict ascending comparison of sort keys (Python tuple `<`). -/
def keyLtB (a b : Nat × String) : Bool :=
  a.1 < b.1 || (a.1 = b.1 && listLt a.2.data b.2.data)

/-- Stable insertion for a descending sort: `t` is placed before the
first element whose key is not greater or equal, so elements with equal
keys keep their original relative order, exactly like Python
`list.sort(key=..., reverse=True)`. -/
def insertDesc (t : Task) : List Task → List Task
  | [] => [t]
  | u :: us =>
    if keyLtB (sortKey t) (sortKey u) then u :: insertDesc t us
    else t :: u :: us

/-- Model of `filtered.sort(key=lambda t: (priority_order[t.priority],
t.created_at), reverse=True)`: a stable sort, descending on the composite
key. -/
def sortDesc (l : List Task) : List Task :=
  l.foldr insertDesc []

/-- TaskService.list_tasks: the three optional filters, then the
descending stable sort on (priority rank, created_at). -/
def list_tasks (tasks : List Task)
    (priority status parent_id : Option String) :
    Except Err (List Task) := do
  let filtered := tasks
  let filtered :=
    match pyTruthy priority with
    | none => filtered
    | some p => filtered.filter (fun t => t.priority == p)
  let filtered :=
    match pyTruthy status with
    | none => filtered
    | some s =>
      if s = "complete" then filtered.filter (fun t => t.completed)
      else if s = "incomplete" then filtered.filter (fun t => !t.completed)
      else filtered
  let filtered ←
    match pyTruthy parent_id with
    | none => pure filtered
    | some p => do
      match ← find_task p tasks with
      | some parent =>
        pure (filtered.filter (fun t => t.parent_id == some parent.id))
      | none => pure ([] : List Task)
  .ok (sortDesc filtered)

/-- Replaces the first occurrence of `a` in the list by `b`; models the
in-place mutation of the Task object returned by find_task. -/
def replaceFirst : List Task → Task → Task → List Task
  | [], _, _ => []
  | u :: us, a, b => if u = a then b :: us else u :: replaceFirst us a b

/-- TaskService.complete_task. -/
def complete_task (task_id : String) (tasks : List Task) :
    Except Err (List Task × Task) := do
  match ← find_task task_id tasks with
  | none => .error (.notFound (msgTaskNotFound task_id))
  | some t =>
    let t2 := { t with completed := true }
    .ok (replaceFirst tasks t t2, t2)

/-- TaskService.uncomplete_task. -/
def uncomplete_task (task_id : String) (tasks : List Task) :
    Except Err (List Task × Task) := do
  match ← find_task task_id tasks with
  | none => .error (.notFound (msgTaskNotFound task_id))
  | some t =>
    let t2 := { t with completed := false }
    .ok (replaceFirst tasks t t2, t2)

/-- TaskService.set_priority.  The source reads the prior priority into a
local variable `old_priority` that is never used afterwards; the returned
value is only the updated task. -/
def set_priority (task_id priority : String) (tasks : List Task) :
    Except Err (List Task × Task) := do
  match ← find_task task_id tasks with
  | none => .error (.notFound (msgTaskNotFound task_id))
  | some t =>
    if priority ∈ VALID_PRIORITIES then
      let t2 := { t with priority := priority }
      .ok (replaceFirst tasks t t2, t2)
    else .error (.validation (msgInvalidPriority priority))

/-- Worklist form of `collect_subtasks`: expanding a task emits its id
and pushes its resolvable children in front of the rest, which yields
exactly the pre-order id sequence of the recursive source.  Each
expansion consumes one unit of fuel; a run that exhausts the fuel
`tasks.length + 1` supplied by remove_task expands more nodes than the
collection has tasks, which on the invariant-free Python side is an
unbounded recursion ending in RecursionError. -/
def collectW (tasks : List Task) : Nat → List Task → Option (List String)
  | _, [] => some []
  | 0, _ :: _ => none
  | Nat.succ fuel, t :: rest =>
    let children := t.subtasks.filterMap (fun sid => taskMapGet tasks sid)
    match collectW tasks fuel (children ++ rest) with
    | none => none
    | some l => some (t.id :: l)

/-- Removes `cid` from the subtasks of the first task with id `p` that
contains it (the parent-fixup loop of remove_task); `List.erase` drops
the first occurrence exactly like Python `list.remove`. -/
def removeFromParent (p cid : String) : List Task → List Task
  | [] => []
  | t :: ts =>
    if t.id = p ∧ cid ∈ t.subtasks then
      { t with subtasks := t.subtasks.erase cid } :: ts
    else t :: removeFromParent p cid ts

/-- TaskService.remove_task: resolve, collect the subtree ids, detach
from the parent, drop the collected ids, return the count removed. -/
def remove_task (task_id : String) (tasks : List Task) :
    Except Err (List Task × Nat) := do
  match ← find_task task_id tasks with
  | none => .error (.notFound (msgTaskNotFound task_id))
  | some task =>
    match collectW tasks (tasks.length + 1) [task] with
    | none => .error (.fatal msgRecursion)
    | some ids =>
      let idsToRemove := ids.dedup
      let tasks2 :=
        match pyTruthy task.parent_id with
        | none => tasks
        | some p => removeFromParent p task.id tasks
      let tasks3 := tasks2.filter (fun t => !(idsToRemove.contains t.id))
      .ok (tasks3, idsToRemove.length)

def MAX_KEYWORD_LENGTH : Nat := 100

/-- Keyword validation loop of SearchService.search_tasks. -/
def validateKeywords : List String → Except Err Unit
  | [] => .ok ()
  | k :: ks =>
    if pyStrip k = "" then .error (.validation msgKeywordEmpty)
    else if MAX_KEYWORD_LENGTH < pyLen k then
      .error (.validation msgKeywordTooLong)
    else validateKeywords ks

/-- Matching loop of search_tasks: a task is kept when any prepared
keyword occurs in its (possibly lowercased) description; the `break`
after the first hit means each task is appended at most once. -/
def searchLoop (skw : List String) (cs : Bool) : List Task → List Task
  | [] => []
  | t :: ts =>
    let d := if cs then t.description else pyLower t.description
    if skw.any (fun k => containsSub k.data d.data) then
      t :: searchLoop skw cs ts
    else searchLoop skw cs ts

/-- SearchService.search_tasks. -/
def search_tasks (tasks : List Task) (keywords : List String)
    (case_sensitive : Bool) : Except Err (List Task) := do
  validateKeywords keywords
  let skw := if case_sensitive then keywords else keywords.map pyLower
  .ok (searchLoop skw case_sensitive tasks)

/-- TaskStore.save at the record level: the JSON text layer is the
identity on the list of serialized task objects. -/
def TaskStore.save (tasks : List Task) : List TaskDict :=
  tasks.map Task.toDict

/-- TaskStore.load at the record level: deserialize every record through
the validating Task.from_dict; `freshId`/`freshTime` are the generators
used for records whose id or created_at are falsy. -/
def TaskStore.load (freshId freshTime : String) (data : List TaskDict) :
    Except Err (List Task) :=
  data.mapM (Task.fromDict freshId freshTime)

/-! Specification-side notions: the structural invariants of spec.md §3
and the ancestor/descendant vocabulary of its testable properties. -/

/-- Invariant 1: all ids in the collection are distinct. -/
def NodupIds (tasks : List Task) : Prop :=
  (tasks.map Task.id).Nodup

/-- Ids are rendered 128-bit values, in particular never empty. -/
def IdsNonempty (tasks : List Task) : Prop :=
  ∀ t ∈ tasks, t.id ≠ ""

/-- Invariant 4, the bidirectional parent/child consistency: a task with
a parent occurs exactly once in that parent's subtasks, and every
subtasks entry resolves to a task pointing back at its owner. -/
def BidirInv (tasks : List Task) : Prop :=
  (∀ t ∈ tasks, ∀ p, t.parent_id = some p →
    ∃ pt, pt ∈ tasks ∧ pt.id = p ∧ pt.subtasks.count t.id = 1) ∧
  (∀ pt ∈ tasks, ∀ c ∈ pt.subtasks,
    ∃ ct, ct ∈ tasks ∧ ct.id = c ∧ ct.parent_id = some pt.id)

/-- Invariant 2, acyclicity of the parent graph, stated as the existence
of a rank strictly decreasing along every parent edge (a topological
height certificate, equivalent to acyclicity on a finite graph). -/
def ParentRanked (tasks : List Task) (rk : String → Nat) : Prop :=
  ∀ t ∈ tasks, ∀ p, t.parent_id = some p → rk p < rk t.id

/-- Statements guarded by an optional-value equation are decidable. -/
instance decOptionGuard {P : String → Prop} [DecidablePred P]
    (o : Option String) : Decidable (∀ p, o = some p → P p) :=
  match o with
  | none => isTrue (fun p h => by cases h)
  | some q =>
    decidable_of_iff (P q)
      ⟨fun h p hp => by cases hp; exact h, fun h => h q rfl⟩

instance decNodupIds (tasks : List Task) : Decidable (NodupIds tasks) := by
  unfold NodupIds; infer_instance

instance decIdsNonempty (tasks : List Task) :
    Decidable (IdsNonempty tasks) := by
  unfold IdsNonempty; infer_instance

instance decBidirInv (tasks : List Task) : Decidable (BidirInv tasks) := by
  unfold BidirInv; infer_instance

instance decParentRanked (tasks : List Task) (rk : String → Nat) :
    Decidable (ParentRanked tasks rk) := by
  unfold ParentRanked; infer_instance

/-- A task record a valid collection may contain: the stored description
is already stripped, non-empty and within bounds, the priority is one of
the three levels, and id and timestamp are non-empty (so deserialization
does not regenerate them). -/
def ValidStoredTask (t : Task) : Prop :=
  t.id ≠ "" ∧ pyStrip t.description = t.description ∧
  t.description ≠ "" ∧ pyLen t.description ≤ MAX_DESCRIPTION_LENGTH ∧
  t.priority ∈ VALID_PRIORITIES ∧ t.created_at ≠ ""

instance (t : Task) : Decidable (ValidStoredTask t) := by
  unfold ValidStoredTask; infer_instance

/-- Ancestor-chain reachability: `UpChain tasks c a` holds when the id
`a` is reached from `c` by following zero or more `parent_id` links
through the id map. -/
inductive UpChain (tasks : List Task) : String → String → Prop
  | refl (a : String) : UpChain tasks a a
  | step {c p a : String} {u : Task} :
      taskMapGet tasks c = some u → u.parent_id = some p →
      UpChain tasks p a → UpChain tasks c a

/-- Bounded evaluation of ancestor-chain reachability: walk the parent
chain from `cur`, checking for `target`. -/
def ancWalkB (tasks : List Task) : Nat → String → String → Bool
  | 0, _, _ => false
  | Nat.succ fuel, cur, target =>
    cur == target ||
      match taskMapGet tasks cur with
      | none => false
      | some t =>
        match t.parent_id with
        | none => false
        | some p => ancWalkB tasks fuel p target

/-- Decides membership of `d` in the subtree rooted at the task with id
`rootId`: the root itself, or any task whose ancestor chain passes
through it.  Fuel `tasks.length + 1` is enough for every chain of an
acyclic collection. -/
def inSubtreeB (tasks : List Task) (rootId : String) (d : Task) : Bool :=
  ancWalkB tasks (tasks.length + 1) d.id rootId

deriving instance DecidableEq for Except

/-! Concrete fixtures used by counterexamples and witnesses. -/

/-- A completed-free high-priority root task. -/
def fxHigh : Task :=
  { id := "hhhhhhhh-0001", description := "high task", completed := false
    priority := "high", created_at := "2024-01-01T00:00:00"
    parent_id := none, subtasks := [] }

/-- A low-priority root task created later than `fxHigh`. -/
def fxLow : Task :=
  { id := "llllllll-0002", description := "low task", completed := false
    priority := "low", created_at := "2024-01-02T00:00:00"
    parent_id := none, subtasks := [] }

/-- A root task with one child, `fxChild`. -/
def fxRoot : Task :=
  { id := "rrrrrrrr-0001", description := "root", completed := false
    priority := "medium", created_at := "2024-01-01T00:00:00"
    parent_id := none, subtasks := ["cccccccc-0002"] }

/-- The depth-2 child of `fxRoot`. -/
def fxChild : Task :=
  { id := "cccccccc-0002", description := "child", completed := false
    priority := "medium", created_at := "2024-01-02T00:00:00"
    parent_id := some "rrrrrrrr-0001", subtasks := [] }

/-- Root task whose id shares its first 8 characters with `fxB`. -/
def fxA : Task :=
  { id := "aaaaaaaa-0001", description := "first", completed := false
    priority := "medium", created_at := "2024-01-01T00:00:00"
    parent_id := none, subtasks := [] }

/-- Root task whose id shares its first 8 characters with `fxA`. -/
def fxB : Task :=
  { id := "aaaaaaaa-0002", description := "second", completed := false
    priority := "medium", created_at := "2024-01-02T00:00:00"
    parent_id := none, subtasks := [] }

/-- A raw description of 501 characters whose stripped form has exactly
500: one leading blank followed by 500 letters. -/
def fxLongDesc : String := " " ++ String.mk (List.replicate 500 'a')

/-! Theorems. -/

/-- Claim C1: the spec (and the comment in list_tasks itself) requires the
result grouped high before medium before low, newest first within each
group.  The code sorts with `reverse=True` over the ascending rank
(high = 0, low = 2), which reverses the priority grouping: on a
collection holding one high and one low task and no filters, list_tasks
returns the low task first.  This theorem evaluates the code at that
failing input. -/
theorem c1_list_order_bug :
    list_tasks [fxHigh, fxLow] none none none = .ok [fxLow, fxHigh] ∧
    fxHigh.priority = "high" ∧ fxLow.priority = "low" := by
  decide

set_option maxRecDepth 10000 in
/-- Claim C3 counterexample: a description whose stripped form has the
admissible length 500 but whose raw form has 501 characters is rejected,
because the source checks `len(description)` before stripping.  The
claim says construction succeeds exactly when the trimmed length is
1-500, so it fails here. -/
theorem c3_untrimmed_length_cex :
    pyLen (pyStrip fxLongDesc) = 500 ∧ 1 ≤ 500 ∧
    Task.make "g" "h" fxLongDesc none false defaultPriority none none [] =
      .error (.validation msgDescTooLong) := by
  decide

/-- Claim C3 amended: construction strips the description and succeeds
exactly when the stripped form is non-empty AND the RAW form has at most
500 characters, storing the stripped string; it raises ValidationError
when the stripped form is empty or the raw length exceeds 500. -/
theorem c3_amended (freshId freshTime d : String) (task_id : Option String)
    (completed : Bool) (p : String) (created_at parent_id : Option String)
    (subtasks : List String) (hp : p ∈ VALID_PRIORITIES) :
    (pyStrip d ≠ "" → pyLen d ≤ MAX_DESCRIPTION_LENGTH →
      ∃ t, Task.make freshId freshTime d task_id completed p created_at
          parent_id subtasks = .ok t ∧ t.description = pyStrip d) ∧
    (pyStrip d = "" →
      Task.make freshId freshTime d task_id completed p created_at
          parent_id subtasks = .error (.validation msgDescEmpty)) ∧
    (MAX_DESCRIPTION_LENGTH < pyLen d → pyStrip d ≠ "" →
      Task.make freshId freshTime d task_id completed p created_at
          parent_id subtasks = .error (.validation msgDescTooLong)) := by
  unfold Task.make validateDescription validatePriority
  refine ⟨fun hne hle => ?_, fun he => ?_, fun hgt hne => ?_⟩
  · rw [if_neg hne, if_neg (by omega)]
    simp only [Bind.bind, Except.bind, if_pos hp]
    exact ⟨_, rfl, rfl⟩
  · rw [if_pos he]; rfl
  · rw [if_neg hne, if_pos hgt]; rfl

/-- Witness for c3_amended at a concrete input on each branch. -/
theorem c3_amended_witness :
    defaultPriority ∈ VALID_PRIORITIES ∧
    (∃ t, Task.make "g" "h" "  hi  " none false defaultPriority none none [] =
        .ok t ∧ t.description = pyStrip "  hi  ") := by
  have h := c3_amended "g" "h" "  hi  " none false defaultPriority none none
    [] (by decide)
  exact ⟨by decide, h.1 (by decide) (by decide)⟩

/-- Claim C2 counterexample: `fxChild` sits at depth 2, one level
shallower than the maximum depth 3, in a collection satisfying the
structural invariants, yet add_task under it raises the depth
ValidationError instead of succeeding. -/
theorem c2_depth_shallower_cex :
    fxRoot.parent_id = none ∧ fxChild.parent_id = some fxRoot.id ∧
    add_task "ffffffff-9999" "2024-02-01T00:00:00" "x" defaultPriority
      (some fxChild.id) [fxRoot, fxChild] =
      .error (.validation (msgMaxDepth MAX_DEPTH)) := by
  decide

/-- Claim C8 counterexample: set_priority on `fxLow` (priority low)
returns only the updated collection and updated task; every field of the
returned task is exhibited and the prior value "low" occurs in none of
them, so the result does not expose the prior priority. -/
theorem c8_no_prior_in_result_cex :
    fxLow.priority = "low" ∧
    set_priority fxLow.id "high" [fxHigh, fxLow] =
      .ok ([fxHigh, { fxLow with priority := "high" }],
           { fxLow with priority := "high" }) := by
  decide

/-- Claim C8 amended: for a resolvable id and valid new priority,
set_priority mutates the resolved task in place, persists the updated
collection and returns the updated task; the prior priority is read into
a dead local in the source and is NOT part of the returned result. -/
theorem c8_amended (tasks : List Task) (s p : String) (t : Task)
    (hf : find_task s tasks = .ok (some t)) (hp : p ∈ VALID_PRIORITIES) :
    set_priority s p tasks =
      .ok (replaceFirst tasks t { t with priority := p },
           { t with priority := p }) := by
  unfold set_priority
  rw [hf]
  simp only [Bind.bind, Except.bind, if_pos hp]

/-! Helper lemmas about the id map, exact find and the circular check. -/

theorem mem_of_getLast?_eq {α : Type} {l : List α} {a : α}
    (h : l.getLast? = some a) : a ∈ l := by
  rcases @List.mem_getLast?_eq_getLast _ l a h with ⟨hne, rfl⟩
  exact List.getLast_mem hne

/-- A successful id-map lookup returns an element of the collection whose
id is the key. -/
theorem taskMapGet_mem {tasks : List Task} {i : String} {u : Task}
    (h : taskMapGet tasks i = some u) : u ∈ tasks ∧ u.id = i := by
  unfold taskMapGet at h
  have hm := mem_of_getLast?_eq h
  have := List.mem_filter.mp hm
  exact ⟨this.1, by simpa using this.2⟩

/-- Under unique ids, looking a member task up by its own id returns it. -/
theorem taskMapGet_self {tasks : List Task} {t : Task}
    (hnd : NodupIds tasks) (ht : t ∈ tasks) :
    taskMapGet tasks t.id = some t := by
  unfold taskMapGet
  have : tasks.filter (fun u => u.id == t.id) = [t] := by
    induction tasks with
    | nil => cases ht
    | cons u rest ih =>
      rw [NodupIds, List.map_cons, List.nodup_cons] at hnd
      rcases List.mem_cons.mp ht with rfl | hmem
      · rw [List.filter_cons_of_pos (by simp)]
        have : rest.filter (fun v => v.id == t.id) = [] := by
          rw [List.filter_eq_nil_iff]
          intro v hv hvid
          have hve : v.id = t.id := by simpa using hvid
          exact hnd.1 (hve ▸ List.mem_map_of_mem Task.id hv)
        rw [this]
      · have hne : u.id ≠ t.id := fun he =>
          hnd.1 (he ▸ List.mem_map_of_mem Task.id hmem)
        rw [List.filter_cons_of_neg (by simpa using hne)]
        exact ih hnd.2 hmem
  rw [this]; rfl

/-- Under unique ids, the exact-match scan of find_task on a member id
returns that member. -/
theorem find?_id_self {tasks : List Task} {t : Task}
    (hnd : NodupIds tasks) (ht : t ∈ tasks) :
    tasks.find? (fun u => u.id == t.id) = some t := by
  induction tasks with
  | nil => cases ht
  | cons u rest ih =>
    rw [NodupIds, List.map_cons, List.nodup_cons] at hnd
    rcases List.mem_cons.mp ht with rfl | hmem
    · rw [List.find?_cons_of_pos _ (by simp)]
    · have hne : u.id ≠ t.id := fun he =>
        hnd.1 (he ▸ List.mem_map_of_mem Task.id hmem)
      rw [List.find?_cons_of_neg _ (by simpa using hne)]
      exact ih hnd.2 hmem

/-- Under unique ids, find_task on the full id of a member returns it. -/
theorem find_task_exact {tasks : List Task} {t : Task}
    (hnd : NodupIds tasks) (ht : t ∈ tasks) :
    find_task t.id tasks = .ok (some t) := by
  unfold find_task
  rw [find?_id_self hnd ht]

/-- A task returned by find_task belongs to the collection. -/
theorem find_task_mem {tasks : List Task} {s : String} {t : Task}
    (h : find_task s tasks = .ok (some t)) : t ∈ tasks := by
  unfold find_task at h
  rcases hf : tasks.find? (fun u => u.id == s) with _ | u
  · rw [hf] at h
    by_cases h8 : 8 ≤ pyLen s
    · rw [if_pos h8] at h
      by_cases h1 : (tasks.filter
          (fun u => startsWithList (pyTake s 8).data u.id.data)).length = 1
      · rw [if_pos h1] at h
        rcases hm : tasks.filter
            (fun u => startsWithList (pyTake s 8).data u.id.data)
          with _ | ⟨v, vs⟩
        · rw [hm] at h1; simp at h1
        · rw [hm] at h
          simp only [List.head?] at h
          cases h
          have hvm : t ∈ tasks.filter
              (fun u => startsWithList (pyTake s 8).data u.id.data) := by
            rw [hm]; exact List.mem_cons_self t vs
          exact (List.mem_filter.mp hvm).1
      · rw [if_neg h1] at h
        by_cases h2 : 1 < (tasks.filter
            (fun u => startsWithList (pyTake s 8).data u.id.data)).length
        · rw [if_pos h2] at h; cases h
        · rw [if_neg h2] at h; cases h
    · rw [if_neg h8] at h; cases h
  · rw [hf] at h
    cases h
    exact List.mem_of_find?_eq_some hf

/-- The circular-dependency loop with a null task id never reports an
error: the error branch compares the running id against `None`. -/
theorem circLoop_none_ok (tasks : List Task) :
    ∀ fuel visited current,
      circLoop none tasks fuel visited current = .ok () := by
  intro fuel
  induction fuel with
  | zero => intro _ _; rfl
  | succ f ih =>
    intro visited current
    unfold circLoop
    by_cases h1 : current = ""
    · rw [if_pos h1]
    · rw [if_neg h1, if_neg (by simp)]
      by_cases h2 : current ∈ visited
      · rw [if_pos h2]
      · rw [if_neg h2]
        cases taskMapGet tasks current with
        | none => rfl
        | some t => exact ih _ _

/-- The whole circular check passes whenever the task id is null. -/
theorem validate_circular_none_ok (parentId : Option String)
    (tasks : List Task) :
    validate_circular_dependency none parentId tasks = .ok () := by
  unfold validate_circular_dependency
  cases pyTruthy parentId with
  | none => rfl
  | some p => exact circLoop_none_ok tasks _ _ _

theorem pyTruthy_some {s : String} (h : s ≠ "") :
    pyTruthy (some s) = some s := by
  simp [pyTruthy, h]

/-- One unfolding step of the depth loop. -/
theorem depthLoop_succ (tasks : List Task) (maxDepth f depth : Nat)
    (cur : String) :
    depthLoop tasks maxDepth (f + 1) depth cur =
      if cur ≠ "" ∧ depth < maxDepth then
        match taskMapGet tasks cur with
        | none => depth
        | some t => depthLoop tasks maxDepth f (depth + 1) (optStr t.parent_id)
      else depth := rfl

/-- Construction succeeds on a stripped-nonempty, raw-short-enough
description and a valid priority, and the resulting record is explicit. -/
theorem make_ok (freshId freshTime d : String) (task_id : Option String)
    (completed : Bool) (p : String) (created_at parent_id : Option String)
    (subtasks : List String) (h1 : pyStrip d ≠ "")
    (h2 : pyLen d ≤ MAX_DESCRIPTION_LENGTH) (hp : p ∈ VALID_PRIORITIES) :
    Task.make freshId freshTime d task_id completed p created_at parent_id
        subtasks =
      .ok { id := pyOr task_id freshId, description := pyStrip d
            completed := completed, priority := p
            created_at := pyOr created_at freshTime
            parent_id := parent_id, subtasks := subtasks } := by
  unfold Task.make validateDescription validatePriority
  rw [if_neg h1, if_neg (by omega)]
  simp only [Bind.bind, Except.bind, if_pos hp]

theorem ne_of_head_ne {a b : String} (h : a.data.head? ≠ b.data.head?) :
    a ≠ b := fun he => h (he ▸ rfl)

theorem msgAmbiguous_ne_circular (s : String) :
    msgAmbiguous s ≠ msgCircular := by
  apply ne_of_head_ne
  show ((("Ambiguous task ID ") ++ s) ++ ": matches multiple tasks").data.head?
      ≠ _
  rw [String.data_append, String.data_append, List.head?_append,
    List.head?_append]
  have h1 : ("Ambiguous task ID ").data.head? = some ('A') := by decide
  rw [h1, Option.or_some, Option.or_some]
  decide

theorem msgInvalidPriority_ne_circular (p : String) :
    msgInvalidPriority p ≠ msgCircular := by
  apply ne_of_head_ne
  show ((("Invalid priority ") ++ p) ++ ". Must be one of: high, medium, low").data.head?
      ≠ _
  rw [String.data_append, String.data_append, List.head?_append,
    List.head?_append]
  have h1 : ("Invalid priority ").data.head? = some ('I') := by decide
  rw [h1, Option.or_some, Option.or_some]
  decide

/-- The only error find_task itself raises is the ambiguity
ValidationError. -/
theorem find_task_error {tasks : List Task} {s : String} {e : Err}
    (h : find_task s tasks = .error e) :
    e = .validation (msgAmbiguous s) := by
  unfold find_task at h
  rcases hf : tasks.find? (fun u => u.id == s) with _ | u
  · rw [hf] at h
    by_cases h8 : 8 ≤ pyLen s
    · rw [if_pos h8] at h
      by_cases h1 : (tasks.filter
          (fun u => startsWithList (pyTake s 8).data u.id.data)).length = 1
      · rw [if_pos h1] at h; cases h
      · rw [if_neg h1] at h
        by_cases h2 : 1 < (tasks.filter
            (fun u => startsWithList (pyTake s 8).data u.id.data)).length
        · rw [if_pos h2] at h
          injection h with h
          exact h.symm
        · rw [if_neg h2] at h; cases h
    · rw [if_neg h8] at h; cases h
  · rw [hf] at h; cases h

/-- The depth check either passes or raises exactly the max-depth
ValidationError. -/
theorem validate_depth_cases (parentId : Option String)
    (tasks : List Task) (maxDepth : Nat) :
    validate_depth parentId tasks maxDepth = .ok () ∨
    validate_depth parentId tasks maxDepth =
      .error (.validation (msgMaxDepth maxDepth)) := by
  unfold validate_depth
  cases pyTruthy parentId with
  | none => exact Or.inl rfl
  | some p =>
    by_cases h : maxDepth ≤ depthLoop tasks maxDepth maxDepth 1 p
    · refine Or.inr ?_
      show (if maxDepth ≤ depthLoop tasks maxDepth maxDepth 1 p then
          (Except.error (Err.validation (msgMaxDepth maxDepth)) :
            Except Err Unit)
          else .ok ()) = _
      rw [if_pos h]
    · refine Or.inl ?_
      show (if maxDepth ≤ depthLoop tasks maxDepth maxDepth 1 p then
          (Except.error (Err.validation (msgMaxDepth maxDepth)) :
            Except Err Unit)
          else .ok ()) = _
      rw [if_neg h]

/-- Witness for c8_amended. -/
theorem c8_amended_witness :
    find_task "llllllll-0002" [fxHigh, fxLow] = .ok (some fxLow) ∧
    ("high" : String) ∈ VALID_PRIORITIES ∧
    set_priority "llllllll-0002" "high" [fxHigh, fxLow] =
      .ok (replaceFirst [fxHigh, fxLow] fxLow { fxLow with priority := "high" },
           { fxLow with priority := "high" }) :=
  ⟨by decide, by decide,
   c8_amended [fxHigh, fxLow] "llllllll-0002" "high" fxLow (by decide)
     (by decide)⟩

/-- Construction fails only with one of the three entity-level
validation messages. -/
theorem make_error {freshId freshTime d : String} {task_id : Option String}
    {completed : Bool} {p : String} {created_at parent_id : Option String}
    {subtasks : List String} {e : Err}
    (h : Task.make freshId freshTime d task_id completed p created_at
        parent_id subtasks = .error e) :
    e = .validation msgDescEmpty ∨ e = .validation msgDescTooLong ∨
    e = .validation (msgInvalidPriority p) := by
  unfold Task.make validateDescription validatePriority at h
  by_cases h1 : pyStrip d = ""
  · rw [if_pos h1] at h
    simp only [Bind.bind, Except.bind] at h
    injection h with h
    exact Or.inl h.symm
  · rw [if_neg h1] at h
    by_cases h2 : MAX_DESCRIPTION_LENGTH < pyLen d
    · rw [if_pos h2] at h
      simp only [Bind.bind, Except.bind] at h
      injection h with h
      exact Or.inr (Or.inl h.symm)
    · rw [if_neg h2] at h
      simp only [Bind.bind, Except.bind] at h
      by_cases h3 : p ∈ VALID_PRIORITIES
      · rw [if_pos h3] at h; cases h
      · rw [if_neg h3] at h
        injection h with h
        exact Or.inr (Or.inr h.symm)

/-- Claim C2 amended: in a collection satisfying the structural
invariants, add_task under a parent that has a parent of its own (depth 2
or more, in particular a parent at the maximum depth) raises the depth
ValidationError, while add_task under a root parent (depth 1) succeeds;
with MAX_DEPTH = 3 the check thus rejects one level earlier than the
claim states. -/
theorem c2_amended (tasks : List Task) (P : Task)
    (hnd : NodupIds tasks) (hne : IdsNonempty tasks) (hb : BidirInv tasks)
    (hP : P ∈ tasks) (freshId freshTime d pr : String)
    (hd1 : pyStrip d ≠ "") (hd2 : pyLen d ≤ MAX_DESCRIPTION_LENGTH)
    (hpr : pr ∈ VALID_PRIORITIES) :
    (∀ q, P.parent_id = some q →
      add_task freshId freshTime d pr (some P.id) tasks =
        .error (.validation (msgMaxDepth MAX_DEPTH))) ∧
    (P.parent_id = none →
      add_task freshId freshTime d pr (some P.id) tasks =
        .ok (appendToParent P.id freshId tasks ++
              [{ id := freshId, description := pyStrip d, completed := false
                 priority := pr, created_at := freshTime
                 parent_id := some P.id, subtasks := [] }],
             { id := freshId, description := pyStrip d, completed := false
               priority := pr, created_at := freshTime
               parent_id := some P.id, subtasks := [] })) := by
  have hPid : P.id ≠ "" := hne P hP
  have hfind := find_task_exact hnd hP
  have hcirc := validate_circular_none_ok (some P.id) tasks
  constructor
  · intro q hq
    obtain ⟨pt, hpt, hptid, -⟩ := hb.1 P hP q hq
    have hqne : q ≠ "" := hptid ▸ hne pt hpt
    have hloop : depthLoop tasks MAX_DEPTH MAX_DEPTH 1 P.id = 3 := by
      show depthLoop tasks 3 (2 + 1) 1 P.id = 3
      rw [depthLoop_succ, if_pos ⟨hPid, by omega⟩]
      simp only [taskMapGet_self hnd hP, hq, optStr]
      show depthLoop tasks 3 (1 + 1) 2 q = 3
      rw [depthLoop_succ, if_pos ⟨hqne, by omega⟩, ← hptid]
      simp only [taskMapGet_self hnd hpt, optStr]
      show depthLoop tasks 3 (0 + 1) 3 _ = 3
      rw [depthLoop_succ, if_neg (fun hc => absurd hc.2 (by omega))]
    have hdep : validate_depth (some P.id) tasks MAX_DEPTH =
        .error (.validation (msgMaxDepth MAX_DEPTH)) := by
      unfold validate_depth
      rw [pyTruthy_some hPid]
      show (if MAX_DEPTH ≤ depthLoop tasks MAX_DEPTH MAX_DEPTH 1 P.id then
          (Except.error (Err.validation (msgMaxDepth MAX_DEPTH)) :
            Except Err Unit)
          else .ok ()) = _
      rw [hloop, if_pos (by decide)]
    unfold add_task
    simp only [pyTruthy_some hPid, hfind, hcirc, hdep, Bind.bind,
      Except.bind]
  · intro hq
    have hloop2 : depthLoop tasks MAX_DEPTH MAX_DEPTH 1 P.id = 2 := by
      show depthLoop tasks 3 (2 + 1) 1 P.id = 2
      rw [depthLoop_succ, if_pos ⟨hPid, by omega⟩]
      simp only [taskMapGet_self hnd hP, hq, optStr]
      show depthLoop tasks 3 (1 + 1) 2 ("") = 2
      rw [depthLoop_succ, if_neg (fun hc => hc.1 rfl)]
    have hdep2 : validate_depth (some P.id) tasks MAX_DEPTH = .ok () := by
      unfold validate_depth
      rw [pyTruthy_some hPid]
      show (if MAX_DEPTH ≤ depthLoop tasks MAX_DEPTH MAX_DEPTH 1 P.id then
          (Except.error (Err.validation (msgMaxDepth MAX_DEPTH)) :
            Except Err Unit)
          else .ok ()) = _
      rw [hloop2, if_neg (by decide)]
    have hmk := make_ok freshId freshTime d none false pr none (some P.id)
      [] hd1 hd2 hpr
    unfold add_task
    simp only [pyTruthy_some hPid, hfind, hcirc, hdep2, hmk, Bind.bind,
      Except.bind, pure, Except.pure, pyOr]

/-- Witness for c2_amended on the two-level fixture collection: adding
under the depth-2 child fails with the depth error, adding under the
root succeeds. -/
theorem c2_amended_witness :
    NodupIds [fxRoot, fxChild] ∧ IdsNonempty [fxRoot, fxChild] ∧
    BidirInv [fxRoot, fxChild] ∧ fxChild ∈ [fxRoot, fxChild] ∧
    add_task "ffffffff-9999" "2024-02-01T00:00:00" "task" defaultPriority
        (some fxChild.id) [fxRoot, fxChild] =
      .error (.validation (msgMaxDepth MAX_DEPTH)) :=
  ⟨by decide, by decide, by decide, by decide,
   (c2_amended [fxRoot, fxChild] fxChild (by decide) (by decide) (by decide)
     (by decide) "ffffffff-9999" "2024-02-01T00:00:00" "task" defaultPriority
     (by decide) (by decide) (by decide)).1 "rrrrrrrr-0001" rfl⟩

/-- Claim C10: add_task can never raise the circular-dependency
ValidationError, because it passes a null task id to the cycle check and
the running ancestor id is never equal to null. -/
theorem c10_no_circular_error (freshId freshTime d pr : String)
    (parent_id : Option String) (tasks : List Task) :
    add_task freshId freshTime d pr parent_id tasks ≠
      .error (.validation msgCircular) := by
  intro h
  unfold add_task at h
  rcases hpt : pyTruthy parent_id with _ | p
  · simp only [hpt, Bind.bind, Except.bind, pure, Except.pure] at h
    rcases hmk : Task.make freshId freshTime d none false pr none none []
      with e | t
    · simp only [hmk] at h
      injection h with h
      subst h
      rcases make_error hmk with he | he | he
      · injection he with he; exact absurd he (by decide)
      · injection he with he; exact absurd he (by decide)
      · injection he with he
        exact absurd he.symm (msgInvalidPriority_ne_circular pr)
    · simp only [hmk] at h
      cases h
  · simp only [hpt, Bind.bind, Except.bind] at h
    rcases hft : find_task p tasks with e | r
    · simp only [hft] at h
      injection h with h
      have hamb := find_task_error hft
      rw [hamb] at h
      injection h with h
      exact absurd h (msgAmbiguous_ne_circular p)
    · rcases r with _ | parent
      · simp only [hft] at h
        injection h with h
        cases h
      · simp only [hft, validate_circular_none_ok (some parent.id) tasks]
          at h
        rcases validate_depth_cases (some parent.id) tasks MAX_DEPTH
          with hvd | hvd
        · simp only [hvd, pure, Except.pure] at h
          rcases hmk : Task.make freshId freshTime d none false pr none
              (some parent.id) [] with e2 | t
          · simp only [hmk] at h
            injection h with h
            subst h
            rcases make_error hmk with he | he | he
            · injection he with he; exact absurd he (by decide)
            · injection he with he; exact absurd he (by decide)
            · injection he with he
              exact absurd he.symm (msgInvalidPriority_ne_circular pr)
          · simp only [hmk] at h
            cases h
        · simp only [hvd] at h
          injection h with h
          injection h with h
          exact absurd h (by decide)

theorem nodup_tasks_of_ids {tasks : List Task} (hnd : NodupIds tasks) :
    tasks.Nodup :=
  List.Nodup.of_map Task.id hnd

theorem eq_singleton_of_mem {l : List Task} {t : Task} (hl : l.Nodup)
    (ht : t ∈ l) (hall : ∀ u ∈ l, u = t) : l = [t] := by
  cases l with
  | nil => cases ht
  | cons a as =>
    have ha : a = t := hall a (List.mem_cons_self a as)
    subst ha
    cases as with
    | nil => rfl
    | cons b bs =>
      have hb : b = a := hall b (by simp)
      rw [List.nodup_cons] at hl
      exact absurd (hb ▸ List.mem_cons_self b bs) hl.1

theorem one_lt_length_of_mem_ne {l : List Task} {t u : Task}
    (ht : t ∈ l) (hu : u ∈ l) (hne : t ≠ u) : 1 < l.length := by
  cases l with
  | nil => cases ht
  | cons a as =>
    cases as with
    | nil =>
      simp only [List.mem_singleton] at ht hu
      exact absurd (ht.trans hu.symm) hne
    | cons b bs => simp only [List.length_cons]; omega

/-- Claim C5: find_task semantics.  Exact id match wins; otherwise, for a
query of at least 8 characters the first 8 characters are matched as a
prefix of every id: no prefix match gives not-found, a unique match gives
that task, two or more matches raise the ambiguity ValidationError;
shorter queries with no exact match give not-found. -/
theorem c5_find_spec (tasks : List Task) (s : String)
    (hnd : NodupIds tasks) :
    (∀ t ∈ tasks, t.id = s → find_task s tasks = .ok (some t)) ∧
    ((∀ t ∈ tasks, t.id ≠ s) → 8 ≤ pyLen s →
      ((∀ t ∈ tasks, ¬ startsWithList (pyTake s 8).data t.id.data) →
        find_task s tasks = .ok none) ∧
      (∀ t ∈ tasks, startsWithList (pyTake s 8).data t.id.data →
        (∀ u ∈ tasks, startsWithList (pyTake s 8).data u.id.data → u = t) →
        find_task s tasks = .ok (some t)) ∧
      (∀ t ∈ tasks, ∀ u ∈ tasks, t ≠ u →
        startsWithList (pyTake s 8).data t.id.data →
        startsWithList (pyTake s 8).data u.id.data →
        find_task s tasks = .error (.validation (msgAmbiguous s)))) ∧
    ((∀ t ∈ tasks, t.id ≠ s) → pyLen s < 8 →
      find_task s tasks = .ok none) := by
  refine ⟨?_, ?_, ?_⟩
  · intro t ht hts
    subst hts
    exact find_task_exact hnd ht
  · intro hnoex h8
    have hf : tasks.find? (fun u => u.id == s) = none :=
      List.find?_eq_none.mpr (fun t ht => by simpa using hnoex t ht)
    refine ⟨?_, ?_, ?_⟩
    · intro hno
      have hfil : tasks.filter
          (fun t => startsWithList (pyTake s 8).data t.id.data) = [] :=
        List.filter_eq_nil_iff.mpr
          (fun t ht => by simpa using hno t ht)
      unfold find_task
      rw [hf, if_pos h8, hfil]
      rfl
    · intro t ht hpre huniq
      have hfil : tasks.filter
          (fun t => startsWithList (pyTake s 8).data t.id.data) = [t] := by
        apply eq_singleton_of_mem
        · exact (nodup_tasks_of_ids hnd).filter _
        · exact List.mem_filter.mpr ⟨ht, by simpa using hpre⟩
        · intro u hu
          have := List.mem_filter.mp hu
          exact huniq u this.1 (by simpa using this.2)
      unfold find_task
      rw [hf, if_pos h8, hfil]
      rfl
    · intro t ht u hu hne hpt hpu
      have h2 : 1 < (tasks.filter
          (fun t => startsWithList (pyTake s 8).data t.id.data)).length := by
        apply @one_lt_length_of_mem_ne _ t u _ _ hne
        · exact List.mem_filter.mpr ⟨ht, by simpa using hpt⟩
        · exact List.mem_filter.mpr ⟨hu, by simpa using hpu⟩
      unfold find_task
      rw [hf, if_pos h8, if_neg (by omega), if_pos h2]
  · intro hnoex h8
    have hf : tasks.find? (fun u => u.id == s) = none :=
      List.find?_eq_none.mpr (fun t ht => by simpa using hnoex t ht)
    unfold find_task
    rw [hf, if_neg (by omega)]

/-- Witness for c5_find_spec: two tasks sharing an 8-character prefix are
ambiguous for a query carrying that prefix. -/
theorem c5_find_spec_witness :
    NodupIds [fxA, fxB] ∧
    find_task "aaaaaaaa-zzzz" [fxA, fxB] =
      .error (.validation (msgAmbiguous "aaaaaaaa-zzzz")) :=
  ⟨by decide,
   ((c5_find_spec [fxA, fxB] "aaaaaaaa-zzzz" (by decide)).2.1
     (by decide) (by decide)).2.2 fxA (by decide) fxB (by decide)
     (by decide) (by decide) (by decide)⟩

/-- Deserializing the serialized form of a valid task reconstructs it
field for field. -/
theorem fromDict_toDict {t : Task} (freshId freshTime : String)
    (hv : ValidStoredTask t) :
    Task.fromDict freshId freshTime (Task.toDict t) = .ok t := by
  obtain ⟨hid, hstrip, hne, hlen, hpr, hca⟩ := hv
  unfold Task.fromDict Task.toDict
  simp only [Option.getD_some]
  rw [make_ok _ _ _ _ _ _ _ _ _ (by rw [hstrip]; exact hne) hlen hpr]
  obtain ⟨tid, td, tc, tp, tca, tpid, tst⟩ := t
  simp only at hid hstrip hca ⊢
  simp [pyOr, hid, hca, hstrip]

/-- Claim C7: save followed by load is the identity on valid collections
(the JSON text layer being modelled at the record level). -/
theorem c7_roundtrip (tasks : List Task) (freshId freshTime : String)
    (hv : ∀ t ∈ tasks, ValidStoredTask t) :
    TaskStore.load freshId freshTime (TaskStore.save tasks) = .ok tasks := by
  induction tasks with
  | nil => rfl
  | cons t rest ih =>
    have h1 := @fromDict_toDict t freshId freshTime
      (hv t (List.mem_cons_self t rest))
    have h2 := ih (fun u hu => hv u (List.mem_cons_of_mem t hu))
    unfold TaskStore.load TaskStore.save at h2 ⊢
    simp only [List.map_cons, List.mapM_cons, h1, h2, Bind.bind,
      Except.bind, pure, Except.pure]

/-- Witness for c7_roundtrip on the two-task fixture collection. -/
theorem c7_roundtrip_witness :
    (∀ t ∈ [fxRoot, fxChild], ValidStoredTask t) ∧
    TaskStore.load "g" "h" (TaskStore.save [fxRoot, fxChild]) =
      .ok [fxRoot, fxChild] :=
  ⟨by decide, c7_roundtrip [fxRoot, fxChild] "g" "h" (by decide)⟩

theorem validateKeywords_ok {keywords : List String}
    (hv : ∀ k ∈ keywords, pyStrip k ≠ "" ∧ pyLen k ≤ MAX_KEYWORD_LENGTH) :
    validateKeywords keywords = .ok () := by
  induction keywords with
  | nil => rfl
  | cons k ks ih =>
    obtain ⟨h1, h2⟩ := hv k (List.mem_cons_self k ks)
    unfold validateKeywords
    rw [if_neg h1, if_neg (by omega)]
    exact ih (fun u hu => hv u (List.mem_cons_of_mem _ hu))

/-- The append-with-break matching loop is the filter by the any-keyword
predicate. -/
theorem searchLoop_eq_filter (skw : List String) (cs : Bool)
    (tasks : List Task) :
    searchLoop skw cs tasks = tasks.filter (fun t =>
      skw.any (fun k => containsSub k.data
        (if cs then t.description else pyLower t.description).data)) := by
  induction tasks with
  | nil => rfl
  | cons t ts ih =>
    simp only [searchLoop]
    by_cases h : (skw.any fun k => containsSub k.data
        (if cs then t.description else pyLower t.description).data) = true
    · rw [if_pos h, List.filter_cons_of_pos (by simpa using h), ih]
    · rw [if_neg h, List.filter_cons_of_neg (by simpa using h), ih]

/-- Claim C9: for valid keywords, search returns exactly the tasks whose
description contains at least one keyword as a substring (logical OR),
case-folding both sides unless case_sensitive, each matching task once
and in the original collection order (the result is the filter of the
collection, hence a sublist). -/
theorem c9_search (tasks : List Task) (keywords : List String) (cs : Bool)
    (hv : ∀ k ∈ keywords, pyStrip k ≠ "" ∧ pyLen k ≤ MAX_KEYWORD_LENGTH) :
    ∃ l, search_tasks tasks keywords cs = .ok l ∧
      l = tasks.filter (fun t =>
        (if cs then keywords else keywords.map pyLower).any
          (fun k => containsSub k.data
            (if cs then t.description else pyLower t.description).data)) ∧
      l.Sublist tasks ∧
      (∀ t, t ∈ l ↔ t ∈ tasks ∧ ∃ k ∈ keywords,
        containsSub (if cs then k else pyLower k).data
          (if cs then t.description else pyLower t.description).data =
          true) := by
  refine ⟨searchLoop (if cs then keywords else keywords.map pyLower) cs
    tasks, ?_, ?_, ?_, ?_⟩
  · unfold search_tasks
    rw [validateKeywords_ok hv]
    rfl
  · exact searchLoop_eq_filter _ _ _
  · rw [searchLoop_eq_filter]
    exact List.filter_sublist _
  · intro t
    rw [searchLoop_eq_filter, List.mem_filter]
    constructor
    · rintro ⟨ht, hm⟩
      refine ⟨ht, ?_⟩
      rw [List.any_eq_true] at hm
      obtain ⟨k', hk', hc⟩ := hm
      cases cs
      · simp only [if_neg Bool.false_ne_true] at hk' hc ⊢
        obtain ⟨k, hk, rfl⟩ := List.mem_map.mp hk'
        exact ⟨k, hk, hc⟩
      · simp only [if_pos rfl] at hk' hc ⊢
        exact ⟨k', hk', hc⟩
    · rintro ⟨ht, k, hk, hc⟩
      refine ⟨ht, ?_⟩
      rw [List.any_eq_true]
      cases cs
      · simp only [if_neg Bool.false_ne_true] at hc ⊢
        exact ⟨pyLower k, List.mem_map_of_mem pyLower hk, hc⟩
      · simp only [if_pos rfl] at hc ⊢
        exact ⟨k, hk, hc⟩

/-- Witness for c9_search: a case-folded keyword matches. -/
theorem c9_search_witness :
    (∀ k ∈ (["HIGH"] : List String),
      pyStrip k ≠ "" ∧ pyLen k ≤ MAX_KEYWORD_LENGTH) ∧
    (∃ l, search_tasks [fxHigh, fxLow] ["HIGH"] false = .ok l ∧
      l = [fxHigh, fxLow].filter (fun t =>
        (if false then ["HIGH"] else (["HIGH"] : List String).map pyLower).any
          (fun k => containsSub k.data
            (if false then t.description else pyLower t.description).data)) ∧
      l.Sublist [fxHigh, fxLow] ∧
      (∀ t, t ∈ l ↔ t ∈ [fxHigh, fxLow] ∧ ∃ k ∈ (["HIGH"] : List String),
        containsSub (if false then k else pyLower k).data
          (if false then t.description else pyLower t.description).data =
          true)) :=
  ⟨by decide, c9_search [fxHigh, fxLow] ["HIGH"] false (by decide)⟩

/-! Invariant preservation machinery. -/

theorem id_inj {tasks : List Task} (hnd : NodupIds tasks) {u v : Task}
    (hu : u ∈ tasks) (hv : v ∈ tasks) (h : u.id = v.id) : u = v :=
  List.inj_on_of_nodup_map hnd hu hv h

theorem forall₂_mem_right {R : Task → Task → Prop} {l1 l2 : List Task}
    (h : List.Forall₂ R l1 l2) {b : Task} (hb : b ∈ l2) :
    ∃ a ∈ l1, R a b := by
  induction h with
  | nil => cases hb
  | cons hr hrest ih =>
    rcases List.mem_cons.mp hb with rfl | hb2
    · exact ⟨_, List.mem_cons_self _ _, hr⟩
    · obtain ⟨a, ha, hab⟩ := ih hb2
      exact ⟨a, List.mem_cons_of_mem _ ha, hab⟩

theorem forall₂_mem_left {R : Task → Task → Prop} {l1 l2 : List Task}
    (h : List.Forall₂ R l1 l2) {a : Task} (ha : a ∈ l1) :
    ∃ b ∈ l2, R a b := by
  induction h with
  | nil => cases ha
  | cons hr hrest ih =>
    rcases List.mem_cons.mp ha with rfl | ha2
    · exact ⟨_, List.mem_cons_self _ _, hr⟩
    · obtain ⟨b, hb, hab⟩ := ih ha2
      exact ⟨b, List.mem_cons_of_mem _ hb, hab⟩

/-- The bidirectional invariant only depends on ids, parent references
and subtasks lists, so it transfers along any pointwise correspondence
preserving those three fields. -/
theorem bidir_congr {ts1 ts2 : List Task}
    (hf : List.Forall₂ (fun a b =>
      a.id = b.id ∧ a.parent_id = b.parent_id ∧ a.subtasks = b.subtasks)
      ts1 ts2)
    (h : BidirInv ts1) : BidirInv ts2 := by
  constructor
  · intro t ht p hp
    obtain ⟨a, ha, hid, hpid, hst⟩ := forall₂_mem_right hf ht
    obtain ⟨pt, hpt, hptid, hcount⟩ := h.1 a ha p (by rw [hpid, hp])
    obtain ⟨pt2, hpt2, hid2, _, hst2⟩ := forall₂_mem_left hf hpt
    refine ⟨pt2, hpt2, by rw [← hid2]; exact hptid, ?_⟩
    rw [← hst2, ← hid]
    exact hcount
  · intro pt hpt c hc
    obtain ⟨a, ha, hid, hpid, hst⟩ := forall₂_mem_right hf hpt
    obtain ⟨ct, hct, hctid, hctp⟩ := h.2 a ha c (by rw [hst]; exact hc)
    obtain ⟨ct2, hct2, hcid2, hcpid2, _⟩ := forall₂_mem_left hf hct
    exact ⟨ct2, hct2, by rw [← hcid2]; exact hctid,
      by rw [← hcpid2, hctp, hid]⟩

theorem forall₂_refl_tasks (l : List Task) :
    List.Forall₂ (fun a b =>
      a.id = b.id ∧ a.parent_id = b.parent_id ∧ a.subtasks = b.subtasks)
      l l :=
  List.forall₂_same.mpr (fun _ _ => ⟨rfl, rfl, rfl⟩)

theorem replaceFirst_forall₂ {a b : Task}
    (hid : a.id = b.id) (hpid : a.parent_id = b.parent_id)
    (hst : a.subtasks = b.subtasks) :
    ∀ tasks : List Task,
      List.Forall₂ (fun x y =>
        x.id = y.id ∧ x.parent_id = y.parent_id ∧ x.subtasks = y.subtasks)
        tasks (replaceFirst tasks a b)
  | [] => List.Forall₂.nil
  | u :: us => by
    unfold replaceFirst
    by_cases h : u = a
    · rw [if_pos h]
      exact List.Forall₂.cons (by rw [h]; exact ⟨hid, hpid, hst⟩)
        (forall₂_refl_tasks us)
    · rw [if_neg h]
      exact List.Forall₂.cons ⟨rfl, rfl, rfl⟩
        (replaceFirst_forall₂ hid hpid hst us)

theorem complete_ok_shape {s : String} {tasks ts2 : List Task} {t2 : Task}
    (h : complete_task s tasks = .ok (ts2, t2)) :
    ∃ t, find_task s tasks = .ok (some t) ∧
      t2 = { t with completed := true } ∧ ts2 = replaceFirst tasks t t2 := by
  unfold complete_task at h
  rcases hf : find_task s tasks with e | r
  · simp only [hf] at h; cases h
  · rcases r with _ | t
    · simp only [hf] at h; cases h
    · simp only [hf] at h
      cases h
      exact ⟨t, rfl, rfl, rfl⟩

theorem uncomplete_ok_shape {s : String} {tasks ts2 : List Task}
    {t2 : Task} (h : uncomplete_task s tasks = .ok (ts2, t2)) :
    ∃ t, find_task s tasks = .ok (some t) ∧
      t2 = { t with completed := false } ∧
      ts2 = replaceFirst tasks t t2 := by
  unfold uncomplete_task at h
  rcases hf : find_task s tasks with e | r
  · simp only [hf] at h; cases h
  · rcases r with _ | t
    · simp only [hf] at h; cases h
    · simp only [hf] at h
      cases h
      exact ⟨t, rfl, rfl, rfl⟩

theorem set_priority_ok_shape {s p : String} {tasks ts2 : List Task}
    {t2 : Task} (h : set_priority s p tasks = .ok (ts2, t2)) :
    ∃ t, find_task s tasks = .ok (some t) ∧
      t2 = { t with priority := p } ∧ ts2 = replaceFirst tasks t t2 := by
  unfold set_priority at h
  rcases hf : find_task s tasks with e | r
  · simp only [hf] at h; cases h
  · rcases r with _ | t
    · simp only [hf] at h; cases h
    · simp only [hf, Bind.bind, Except.bind] at h
      by_cases hp : p ∈ VALID_PRIORITIES
      · rw [if_pos hp] at h
        cases h
        exact ⟨t, rfl, rfl, rfl⟩
      · rw [if_neg hp] at h; cases h

theorem make_ok_inv {freshId freshTime d : String}
    {task_id : Option String} {completed : Bool} {p : String}
    {created_at parent_id : Option String} {subtasks : List String}
    {t : Task}
    (h : Task.make freshId freshTime d task_id completed p created_at
        parent_id subtasks = .ok t) :
    t.id = pyOr task_id freshId ∧ t.parent_id = parent_id ∧
    t.subtasks = subtasks := by
  unfold Task.make validateDescription validatePriority at h
  by_cases h1 : pyStrip d = ""
  · rw [if_pos h1] at h
    simp only [Bind.bind, Except.bind] at h
    cases h
  · rw [if_neg h1] at h
    by_cases h2 : MAX_DESCRIPTION_LENGTH < pyLen d
    · rw [if_pos h2] at h
      simp only [Bind.bind, Except.bind] at h
      cases h
    · rw [if_neg h2] at h
      simp only [Bind.bind, Except.bind] at h
      by_cases h3 : p ∈ VALID_PRIORITIES
      · rw [if_pos h3] at h
        cases h
        exact ⟨rfl, rfl, rfl⟩
      · rw [if_neg h3] at h
        cases h

theorem replaceFirst_mem_self {l : List Task} {a : Task} (ha : a ∈ l)
    (b : Task) : b ∈ replaceFirst l a b := by
  induction l with
  | nil => cases ha
  | cons u us ih =>
    unfold replaceFirst
    by_cases h : u = a
    · rw [if_pos h]
      exact List.mem_cons_self _ _
    · rw [if_neg h]
      rcases List.mem_cons.mp ha with rfl | ha2
      · exact absurd rfl h
      · exact List.mem_cons_of_mem _ (ih ha2)

theorem replaceFirst_mem_of_ne {l : List Task} {a y : Task} (hy : y ∈ l)
    (hne : y ≠ a) (b : Task) : y ∈ replaceFirst l a b := by
  induction l with
  | nil => cases hy
  | cons u us ih =>
    unfold replaceFirst
    by_cases h : u = a
    · rw [if_pos h]
      rcases List.mem_cons.mp hy with rfl | hy2
      · exact absurd h hne
      · exact List.mem_cons_of_mem _ hy2
    · rw [if_neg h]
      rcases List.mem_cons.mp hy with rfl | hy2
      · exact List.mem_cons_self _ _
      · exact List.mem_cons_of_mem _ (ih hy2)

theorem replaceFirst_mem_nodup {l : List Task} (hl : l.Nodup) {a b : Task}
    (ha : a ∈ l) : ∀ x ∈ replaceFirst l a b, x = b ∨ (x ∈ l ∧ x ≠ a) := by
  induction l with
  | nil => cases ha
  | cons u us ih =>
    rw [List.nodup_cons] at hl
    unfold replaceFirst
    by_cases h : u = a
    · rw [if_pos h]
      intro x hx
      rcases List.mem_cons.mp hx with rfl | hx2
      · exact Or.inl rfl
      · refine Or.inr ⟨List.mem_cons_of_mem _ hx2, fun he => hl.1 ?_⟩
        rw [h, ← he]
        exact hx2
    · rw [if_neg h]
      intro x hx
      rcases List.mem_cons.mp hx with rfl | hx2
      · exact Or.inr ⟨List.mem_cons_self _ _, fun he => h (he ▸ rfl)⟩
      · have ha2 : a ∈ us := by
          rcases List.mem_cons.mp ha with rfl | ha3
          · exact absurd rfl h
          · exact ha3
        rcases ih hl.2 ha2 x hx2 with hb | ⟨hm, hne⟩
        · exact Or.inl hb
        · exact Or.inr ⟨List.mem_cons_of_mem _ hm, hne⟩

/-- Under unique ids the parent-append loop replaces exactly the parent
task, keeping everything else in place. -/
theorem appendToParent_eq {tasks : List Task} (hnd : NodupIds tasks)
    {P : Task} (hP : P ∈ tasks) (nid : String) :
    appendToParent P.id nid tasks =
      replaceFirst tasks P { P with subtasks := P.subtasks ++ [nid] } := by
  induction tasks with
  | nil => rfl
  | cons u us ih =>
    rw [NodupIds, List.map_cons, List.nodup_cons] at hnd
    unfold appendToParent replaceFirst
    by_cases h : u.id = P.id
    · have hup : u = P := by
        rcases List.mem_cons.mp hP with rfl | hP2
        · rfl
        · exact absurd (h ▸ List.mem_map_of_mem Task.id hP2) hnd.1
      rw [if_pos h, if_pos hup, hup]
    · have hune : u ≠ P := fun he => h (he ▸ rfl)
      rw [if_neg h, if_neg hune]
      congr 1
      have hP2 : P ∈ us := by
        rcases List.mem_cons.mp hP with rfl | hP3
        · exact absurd rfl h
        · exact hP3
      exact ih hnd.2 hP2

theorem add_ok_shape {freshId freshTime d pr : String}
    {parent_id : Option String} {tasks ts2 : List Task} {t2 : Task}
    (h : add_task freshId freshTime d pr parent_id tasks = .ok (ts2, t2)) :
    t2.id = freshId ∧ t2.subtasks = [] ∧
    ((t2.parent_id = none ∧ ts2 = tasks ++ [t2]) ∨
     (∃ parent, parent ∈ tasks ∧ t2.parent_id = some parent.id ∧
       ((parent.id = "" ∧ ts2 = tasks ++ [t2]) ∨
        (parent.id ≠ "" ∧
          ts2 = appendToParent parent.id t2.id tasks ++ [t2])))) := by
  unfold add_task at h
  rcases hpt : pyTruthy parent_id with _ | p
  · simp only [hpt, Bind.bind, Except.bind, pure, Except.pure] at h
    rcases hmk : Task.make freshId freshTime d none false pr none none []
      with e | t
    · simp only [hmk] at h; cases h
    · simp only [hmk, pyTruthy] at h
      cases h
      obtain ⟨hid, hpid, hst⟩ := make_ok_inv hmk
      exact ⟨hid, hst, Or.inl ⟨hpid, rfl⟩⟩
  · simp only [hpt, Bind.bind, Except.bind] at h
    rcases hft : find_task p tasks with e | r
    · simp only [hft] at h; cases h
    · rcases r with _ | parent
      · simp only [hft] at h; cases h
      · simp only [hft, validate_circular_none_ok (some parent.id) tasks]
          at h
        rcases validate_depth_cases (some parent.id) tasks MAX_DEPTH
          with hvd | hvd
        · simp only [hvd, pure, Except.pure] at h
          rcases hmk : Task.make freshId freshTime d none false pr none
              (some parent.id) [] with e2 | t
          · simp only [hmk] at h; cases h
          · simp only [hmk] at h
            obtain ⟨hid, hpid, hst⟩ := make_ok_inv hmk
            by_cases hpe : parent.id = ""
            · have hred : pyTruthy (some parent.id) = none := by
                rw [hpe]; rfl
              simp only [hred] at h
              cases h
              exact ⟨hid, hst,
                Or.inr ⟨parent, find_task_mem hft, hpid,
                  Or.inl ⟨hpe, rfl⟩⟩⟩
            · simp only [pyTruthy_some hpe] at h
              cases h
              exact ⟨hid, hst,
                Or.inr ⟨parent, find_task_mem hft, hpid,
                  Or.inr ⟨hpe, rfl⟩⟩⟩
        · simp only [hvd] at h; cases h

/-- Appending a fresh root task preserves the bidirectional invariant. -/
theorem bidir_append_root {tasks : List Task} {t2 : Task}
    (hb : BidirInv tasks) (hpid : t2.parent_id = none)
    (hst : t2.subtasks = []) : BidirInv (tasks ++ [t2]) := by
  constructor
  · intro t ht p hp
    rcases List.mem_append.mp ht with ht1 | ht1
    · obtain ⟨pt, hpt, a, b⟩ := hb.1 t ht1 p hp
      exact ⟨pt, List.mem_append_left _ hpt, a, b⟩
    · have he : t = t2 := by simpa using ht1
      rw [he, hpid] at hp
      cases hp
  · intro pt hpt c hc
    rcases List.mem_append.mp hpt with h1 | h1
    · obtain ⟨ct, hct, a, b⟩ := hb.2 pt h1 c hc
      exact ⟨ct, List.mem_append_left _ hct, a, b⟩
    · have he : pt = t2 := by simpa using h1
      rw [he, hst] at hc
      cases hc

/-- Appending a fresh child task and registering it once in its parent
subtasks list preserves the bidirectional invariant. -/
theorem bidir_add_child {tasks : List Task} {parent t2 : Task}
    (hnd : NodupIds tasks) (hb : BidirInv tasks)
    (hp : parent ∈ tasks) (hfresh : t2.id ∉ tasks.map Task.id)
    (ht2p : t2.parent_id = some parent.id) (ht2s : t2.subtasks = []) :
    BidirInv (appendToParent parent.id t2.id tasks ++ [t2]) := by
  rw [appendToParent_eq hnd hp]
  have hndl : tasks.Nodup := nodup_tasks_of_ids hnd
  have hmemchar := @replaceFirst_mem_nodup tasks hndl parent
    { parent with subtasks := parent.subtasks ++ [t2.id] } hp
  have hpar2mem : { parent with subtasks := parent.subtasks ++ [t2.id] } ∈
      replaceFirst tasks parent
        { parent with subtasks := parent.subtasks ++ [t2.id] } :=
    replaceFirst_mem_self hp _
  have hcore : ∀ y ∈ tasks, ∃ x,
      x ∈ replaceFirst tasks parent
        { parent with subtasks := parent.subtasks ++ [t2.id] } ∧
      x.id = y.id ∧ x.parent_id = y.parent_id ∧
      (x.subtasks = y.subtasks ∨
        (y = parent ∧ x.subtasks = parent.subtasks ++ [t2.id])) := by
    intro y hy
    by_cases hyp : y = parent
    · subst hyp
      exact ⟨_, hpar2mem, rfl, rfl, Or.inr ⟨rfl, rfl⟩⟩
    · exact ⟨y, replaceFirst_mem_of_ne hy hyp _, rfl, rfl, Or.inl rfl⟩
  have hfreshsub : ∀ pt ∈ tasks, t2.id ∉ pt.subtasks := by
    intro pt hpt hmem
    obtain ⟨ct, hct, hctid, _⟩ := hb.2 pt hpt t2.id hmem
    exact hfresh (hctid ▸ List.mem_map_of_mem Task.id hct)
  have hfreshne : ∀ y ∈ tasks, y.id ≠ t2.id := by
    intro y hy he
    exact hfresh (he ▸ List.mem_map_of_mem Task.id hy)
  constructor
  · intro t ht p hp'
    rcases List.mem_append.mp ht with ht1 | ht1
    · have hty : ∃ y ∈ tasks, t.id = y.id ∧ t.parent_id = y.parent_id := by
        rcases hmemchar t ht1 with rfl | ⟨hmem, _⟩
        · exact ⟨parent, hp, rfl, rfl⟩
        · exact ⟨t, hmem, rfl, rfl⟩
      obtain ⟨y, hy, hyid, hypid⟩ := hty
      obtain ⟨pt, hpt, hptid, hcount⟩ := hb.1 y hy p
        (by rw [← hypid]; exact hp')
      obtain ⟨x, hx, hxid, _, hxst⟩ := hcore pt hpt
      refine ⟨x, List.mem_append_left _ hx,
        by rw [hxid]; exact hptid, ?_⟩
      have hne : y.id ≠ t2.id := hfreshne y hy
      rcases hxst with hsame | ⟨hpeq, happ⟩
      · rw [hsame, hyid]
        exact hcount
      · rw [happ, hyid, List.count_append]
        have h0 : List.count y.id [t2.id] = 0 :=
          List.count_eq_zero.mpr (by simpa using hne)
        rw [h0, Nat.add_zero, ← hpeq]
        exact hcount
    · have he : t = t2 := by simpa using ht1
      rw [he, ht2p] at hp'
      injection hp' with hpp
      refine ⟨{ parent with subtasks := parent.subtasks ++ [t2.id] },
        List.mem_append_left _ hpar2mem, hpp, ?_⟩
      show (parent.subtasks ++ [t2.id]).count t.id = 1
      rw [he, List.count_append,
        List.count_eq_zero.mpr (hfreshsub parent hp)]
      simp
  · intro pt hpt c hc
    rcases List.mem_append.mp hpt with h1 | h1
    · rcases hmemchar pt h1 with rfl | ⟨hmem, _⟩
      · have hc' : c ∈ parent.subtasks ++ [t2.id] := hc
        rcases List.mem_append.mp hc' with hc1 | hc1
        · obtain ⟨ct, hct, hctid, hctp⟩ := hb.2 parent hp c hc1
          obtain ⟨x, hx, hxid, hxpid, _⟩ := hcore ct hct
          exact ⟨x, List.mem_append_left _ hx,
            by rw [hxid]; exact hctid, by rw [hxpid, hctp]⟩
        · have he : c = t2.id := by simpa using hc1
          subst he
          exact ⟨t2, List.mem_append_right _ (by simp), rfl,
            by rw [ht2p]⟩
      · obtain ⟨ct, hct, hctid, hctp⟩ := hb.2 pt hmem c hc
        obtain ⟨x, hx, hxid, hxpid, _⟩ := hcore ct hct
        exact ⟨x, List.mem_append_left _ hx,
          by rw [hxid]; exact hctid, by rw [hxpid, hctp]⟩
    · have he : pt = t2 := by simpa using h1
      rw [he, ht2s] at hc
      cases hc

theorem collectW_nil (tasks : List Task) (fuel : Nat) :
    collectW tasks fuel [] = some [] := by
  cases fuel <;> rfl

theorem collectW_zero_cons (tasks : List Task) (t : Task)
    (rest : List Task) : collectW tasks 0 (t :: rest) = none := rfl

theorem collectW_succ (tasks : List Task) (f : Nat) (t : Task)
    (rest : List Task) :
    collectW tasks (f + 1) (t :: rest) =
      match collectW tasks f
          (t.subtasks.filterMap (fun sid => taskMapGet tasks sid) ++ rest)
        with
      | none => none
      | some l => some (t.id :: l) := rfl

/-- Every worklist entry is collected. -/
theorem collectW_mem {tasks : List Task} :
    ∀ {fuel : Nat} {ws : List Task} {l : List String},
      collectW tasks fuel ws = some l → ∀ w ∈ ws, w.id ∈ l := by
  intro fuel
  induction fuel with
  | zero =>
    intro ws l h w hw
    cases ws with
    | nil => cases hw
    | cons t rest => rw [collectW_zero_cons] at h; cases h
  | succ f ih =>
    intro ws l h w hw
    cases ws with
    | nil => cases hw
    | cons t rest =>
      rw [collectW_succ] at h
      rcases hc : collectW tasks f
          (t.subtasks.filterMap (fun sid => taskMapGet tasks sid) ++ rest)
        with _ | l2
      · rw [hc] at h; cases h
      · rw [hc] at h
        injection h with h
        subst h
        rcases List.mem_cons.mp hw with rfl | hw2
        · exact List.mem_cons_self _ _
        · exact List.mem_cons_of_mem _
            (ih hc w (List.mem_append_right _ hw2))

/-- Every collected id belongs to a worklist entry or a collection
member, and the resolvable children of its task are collected too. -/
theorem collectW_children {tasks : List Task} :
    ∀ {fuel : Nat} {ws : List Task} {l : List String},
      collectW tasks fuel ws = some l →
      ∀ e ∈ l, ∃ u, (u ∈ ws ∨ u ∈ tasks) ∧ u.id = e ∧
        ∀ sid ∈ u.subtasks, ∀ sub, taskMapGet tasks sid = some sub →
          sub.id ∈ l := by
  intro fuel
  induction fuel with
  | zero =>
    intro ws l h e he
    cases ws with
    | nil =>
      rw [collectW_nil] at h
      injection h with h
      subst h
      cases he
    | cons t rest => rw [collectW_zero_cons] at h; cases h
  | succ f ih =>
    intro ws l h e he
    cases ws with
    | nil =>
      rw [collectW_nil] at h
      injection h with h
      subst h
      cases he
    | cons t rest =>
      rw [collectW_succ] at h
      rcases hc : collectW tasks f
          (t.subtasks.filterMap (fun sid => taskMapGet tasks sid) ++ rest)
        with _ | l2
      · rw [hc] at h; cases h
      · rw [hc] at h
        injection h with h
        subst h
        rcases List.mem_cons.mp he with rfl | he2
        · refine ⟨t, Or.inl (List.mem_cons_self _ _), rfl, ?_⟩
          intro sid hsid sub hsub
          have hsubmem : sub ∈ t.subtasks.filterMap
              (fun s => taskMapGet tasks s) :=
            List.mem_filterMap.mpr ⟨sid, hsid, hsub⟩
          exact List.mem_cons_of_mem _
            (collectW_mem hc sub (List.mem_append_left _ hsubmem))
        · obtain ⟨u, hu, huid, hch⟩ := ih hc e he2
          refine ⟨u, ?_, huid, fun sid hsid sub hsub =>
            List.mem_cons_of_mem _ (hch sid hsid sub hsub)⟩
          rcases hu with humem | humem
          · rcases List.mem_append.mp humem with h1 | h1
            · obtain ⟨sid, _, hget⟩ := List.mem_filterMap.mp h1
              exact Or.inr (taskMapGet_mem hget).1
            · exact Or.inl (List.mem_cons_of_mem _ h1)
          · exact Or.inr humem

/-- Every collected id is a worklist id or has its parent collected. -/
theorem collectW_parent {tasks : List Task} (hnd : NodupIds tasks)
    (hb : BidirInv tasks) :
    ∀ {fuel : Nat} {ws : List Task} {l : List String},
      (∀ w ∈ ws, w ∈ tasks) → collectW tasks fuel ws = some l →
      ∀ e ∈ l, (∃ w ∈ ws, w.id = e) ∨
        (∃ u pu, u ∈ tasks ∧ u.id = e ∧ u.parent_id = some pu ∧
          pu ∈ l) := by
  intro fuel
  induction fuel with
  | zero =>
    intro ws l hws h e he
    cases ws with
    | nil =>
      rw [collectW_nil] at h
      injection h with h
      subst h
      cases he
    | cons t rest => rw [collectW_zero_cons] at h; cases h
  | succ f ih =>
    intro ws l hws h e he
    cases ws with
    | nil =>
      rw [collectW_nil] at h
      injection h with h
      subst h
      cases he
    | cons t rest =>
      rw [collectW_succ] at h
      rcases hc : collectW tasks f
          (t.subtasks.filterMap (fun sid => taskMapGet tasks sid) ++ rest)
        with _ | l2
      · rw [hc] at h; cases h
      · rw [hc] at h
        injection h with h
        subst h
        rcases List.mem_cons.mp he with rfl | he2
        · exact Or.inl ⟨t, List.mem_cons_self _ _, rfl⟩
        · have hws2 : ∀ w ∈ t.subtasks.filterMap
              (fun sid => taskMapGet tasks sid) ++ rest, w ∈ tasks := by
            intro w hw
            rcases List.mem_append.mp hw with h1 | h1
            · obtain ⟨sid, _, hget⟩ := List.mem_filterMap.mp h1
              exact (taskMapGet_mem hget).1
            · exact hws w (List.mem_cons_of_mem _ h1)
          rcases ih hws2 hc e he2
            with ⟨w, hw, hwid⟩ | ⟨u, pu, hu, huid, hup, hpu⟩
          · rcases List.mem_append.mp hw with h1 | h1
            · refine Or.inr ?_
              obtain ⟨sid, hsid, hget⟩ := List.mem_filterMap.mp h1
              obtain ⟨hwmem, hwid2⟩ := taskMapGet_mem hget
              obtain ⟨ct, hct, hctid, hctp⟩ := hb.2 t
                (hws t (List.mem_cons_self _ _)) sid hsid
              have hwct : w = ct :=
                id_inj hnd hwmem hct (by rw [hwid2, hctid])
              exact ⟨w, t.id, hwmem, hwid,
                by rw [hwct]; exact hctp, List.mem_cons_self _ _⟩
            · exact Or.inl ⟨w, List.mem_cons_of_mem _ h1, hwid⟩
          · exact Or.inr
              ⟨u, pu, hu, huid, hup, List.mem_cons_of_mem _ hpu⟩

theorem removeFromParent_mem {p cid : String} :
    ∀ {ts : List Task}, ∀ x ∈ removeFromParent p cid ts,
      ∃ y ∈ ts, x.id = y.id ∧ x.parent_id = y.parent_id ∧
        (x.subtasks = y.subtasks ∨ x.subtasks = y.subtasks.erase cid) := by
  intro ts
  induction ts with
  | nil => intro x hx; cases hx
  | cons u us ih =>
    intro x hx
    unfold removeFromParent at hx
    by_cases h : u.id = p ∧ cid ∈ u.subtasks
    · rw [if_pos h] at hx
      rcases List.mem_cons.mp hx with rfl | hx2
      · exact ⟨u, List.mem_cons_self _ _, rfl, rfl, Or.inr rfl⟩
      · exact ⟨x, List.mem_cons_of_mem _ hx2, rfl, rfl, Or.inl rfl⟩
    · rw [if_neg h] at hx
      rcases List.mem_cons.mp hx with rfl | hx2
      · exact ⟨x, List.mem_cons_self _ _, rfl, rfl, Or.inl rfl⟩
      · obtain ⟨y, hy, a, b, c⟩ := ih x hx2
        exact ⟨y, List.mem_cons_of_mem _ hy, a, b, c⟩

theorem removeFromParent_core {p cid : String} :
    ∀ {ts : List Task}, ∀ y ∈ ts, ∃ x ∈ removeFromParent p cid ts,
      x.id = y.id ∧ x.parent_id = y.parent_id ∧
        (x.subtasks = y.subtasks ∨ x.subtasks = y.subtasks.erase cid) := by
  intro ts
  induction ts with
  | nil => intro y hy; cases hy
  | cons u us ih =>
    intro y hy
    unfold removeFromParent
    by_cases h : u.id = p ∧ cid ∈ u.subtasks
    · rw [if_pos h]
      rcases List.mem_cons.mp hy with rfl | hy2
      · exact ⟨_, List.mem_cons_self _ _, rfl, rfl, Or.inr rfl⟩
      · exact ⟨y, List.mem_cons_of_mem _ hy2, rfl, rfl, Or.inl rfl⟩
    · rw [if_neg h]
      rcases List.mem_cons.mp hy with rfl | hy2
      · exact ⟨y, List.mem_cons_self _ _, rfl, rfl, Or.inl rfl⟩
      · obtain ⟨x, hx, a, b, c⟩ := ih y hy2
        exact ⟨x, List.mem_cons_of_mem _ hx, a, b, c⟩

/-- Under unique ids the parent-detach loop replaces exactly the parent
task by its erased version. -/
theorem removeFromParent_of_parent {ts : List Task} (hnd : NodupIds ts)
    {y : Task} {p cid : String} (hy : y ∈ ts) (hyp : y.id = p)
    (hcid : cid ∈ y.subtasks) :
    removeFromParent p cid ts =
      replaceFirst ts y { y with subtasks := y.subtasks.erase cid } := by
  induction ts with
  | nil => cases hy
  | cons u us ih =>
    rw [NodupIds, List.map_cons, List.nodup_cons] at hnd
    unfold removeFromParent replaceFirst
    by_cases h : u.id = p
    · have huy : u = y := by
        rcases List.mem_cons.mp hy with rfl | hy2
        · rfl
        · exact absurd ((h.trans hyp.symm).symm ▸
            List.mem_map_of_mem Task.id hy2) hnd.1
      rw [if_pos ⟨h, huy ▸ hcid⟩, if_pos huy, huy]
    · have hune : u ≠ y := fun he => h (he ▸ hyp)
      have hcond : ¬(u.id = p ∧ cid ∈ u.subtasks) := fun hcnd => h hcnd.1
      rw [if_neg hcond, if_neg hune]
      congr 1
      have hy2 : y ∈ us := by
        rcases List.mem_cons.mp hy with rfl | hy3
        · exact absurd hyp h
        · exact hy3
      exact ih hnd.2 hy2

theorem pyTruthy_eq_some {o : Option String} {p : String}
    (h : pyTruthy o = some p) : o = some p ∧ p ≠ "" := by
  cases o with
  | none => cases h
  | some s =>
    simp only [pyTruthy] at h
    by_cases hs : s = ""
    · rw [if_pos hs] at h; cases h
    · rw [if_neg hs] at h
      injection h with h
      subst h
      exact ⟨rfl, hs⟩

theorem remove_ok_shape {s : String} {tasks ts2 : List Task} {n : Nat}
    (h : remove_task s tasks = .ok (ts2, n)) :
    ∃ target l, find_task s tasks = .ok (some target) ∧
      collectW tasks (tasks.length + 1) [target] = some l ∧
      n = l.dedup.length ∧
      ts2 = (match pyTruthy target.parent_id with
        | none => tasks
        | some p => removeFromParent p target.id tasks).filter
          (fun t => !(l.dedup.contains t.id)) := by
  unfold remove_task at h
  rcases hf : find_task s tasks with e | r
  · simp only [hf] at h; cases h
  · rcases r with _ | target
    · simp only [hf] at h; cases h
    · simp only [hf, Bind.bind, Except.bind] at h
      rcases hc : collectW tasks (tasks.length + 1) [target] with _ | l
      · rw [hc] at h; cases h
      · rw [hc] at h
        cases h
        exact ⟨target, l, rfl, hc, rfl, rfl⟩

/-- Filtering out a downward- and upward-closed id set from a corefield
preserving image of an invariant collection preserves the invariant. -/
theorem bidir_filter_removed {tasks B : List Task} {target : Task}
    {l : List String} (hnd : NodupIds tasks) (hb : BidirInv tasks)
    (htid : target.id ∈ l)
    (hA : ∀ ct ∈ tasks, ∀ pe, ct.parent_id = some pe → pe ∈ l →
      ct.id ∈ l)
    (hPar : ∀ e ∈ l, e = target.id ∨
      (∃ u pu, u ∈ tasks ∧ u.id = e ∧ u.parent_id = some pu ∧ pu ∈ l))
    (hBmem : ∀ x ∈ B, ∃ y ∈ tasks, x.id = y.id ∧
      x.parent_id = y.parent_id ∧
      (x.subtasks = y.subtasks ∨ x.subtasks = y.subtasks.erase target.id))
    (hBcore : ∀ y ∈ tasks, ∃ x ∈ B, x.id = y.id ∧
      x.parent_id = y.parent_id ∧
      (x.subtasks = y.subtasks ∨ x.subtasks = y.subtasks.erase target.id))
    (hTargetNot : ∀ x ∈ B, target.id ∉ x.subtasks) :
    BidirInv (B.filter (fun t => !(l.dedup.contains t.id))) := by
  have hFmem : ∀ x : Task,
      x ∈ B.filter (fun t => !(l.dedup.contains t.id)) ↔
        x ∈ B ∧ x.id ∉ l := by
    intro x
    rw [List.mem_filter]
    simp
  constructor
  · intro t ht p hp'
    obtain ⟨htB, htnotl⟩ := (hFmem t).mp ht
    obtain ⟨y, hy, hyid, hypid, hyst⟩ := hBmem t htB
    have hyp' : y.parent_id = some p := by rw [← hypid]; exact hp'
    obtain ⟨pt, hpt, hptid, hcount⟩ := hb.1 y hy p hyp'
    have hpl : p ∉ l := by
      intro hpl
      apply htnotl
      rw [hyid]
      exact hA y hy p hyp' hpl
    obtain ⟨x, hxB, hxid, _, hxst⟩ := hBcore pt hpt
    have hxF : x ∈ B.filter (fun u => !(l.dedup.contains u.id)) :=
      (hFmem x).mpr ⟨hxB, by rw [hxid, hptid]; exact hpl⟩
    refine ⟨x, hxF, by rw [hxid]; exact hptid, ?_⟩
    have htne : t.id ≠ target.id := fun he => htnotl (he ▸ htid)
    rcases hxst with hsame | herase
    · rw [hsame, hyid]
      exact hcount
    · rw [herase, List.count_erase_of_ne htne, hyid]
      exact hcount
  · intro x hx c hc
    obtain ⟨hxB, hxnotl⟩ := (hFmem x).mp hx
    obtain ⟨y, hy, hyid, hypid, hyst⟩ := hBmem x hxB
    have hcy : c ∈ y.subtasks := by
      rcases hyst with hs | hs
      · rw [← hs]; exact hc
      · exact List.mem_of_mem_erase (hs ▸ hc)
    obtain ⟨ct, hct, hctid, hctp⟩ := hb.2 y hy c hcy
    have hcnot : c ∉ l := by
      intro hcl
      rcases hPar c hcl with he | ⟨u, pu, hu, huid, hup, hpul⟩
      · subst he
        exact hTargetNot x hxB hc
      · have hu_ct : u = ct := id_inj hnd hu hct (by rw [huid, hctid])
        rw [hu_ct, hctp] at hup
        injection hup with hup
        apply hxnotl
        rw [hyid, hup]
        exact hpul
    obtain ⟨x2, hx2B, hx2id, hx2pid, _⟩ := hBcore ct hct
    refine ⟨x2,
      (hFmem x2).mpr ⟨hx2B, by rw [hx2id, hctid]; exact hcnot⟩,
      by rw [hx2id]; exact hctid, ?_⟩
    rw [hx2pid, hctp, hyid]

/-- A successful subtree collection followed by parent detach and filter
preserves the bidirectional invariant. -/
theorem bidir_remove {tasks : List Task} {target : Task} {l : List String}
    (hnd : NodupIds tasks) (hne : IdsNonempty tasks) (hb : BidirInv tasks)
    (htm : target ∈ tasks)
    (hc : collectW tasks (tasks.length + 1) [target] = some l) :
    BidirInv ((match pyTruthy target.parent_id with
      | none => tasks
      | some p => removeFromParent p target.id tasks).filter
        (fun t => !(l.dedup.contains t.id))) := by
  have htid : target.id ∈ l :=
    collectW_mem hc target (List.mem_cons_self _ _)
  have hws : ∀ w ∈ [target], w ∈ tasks := by
    intro w hw
    rcases List.mem_cons.mp hw with rfl | h0
    · exact htm
    · cases h0
  have hA : ∀ ct ∈ tasks, ∀ pe, ct.parent_id = some pe → pe ∈ l →
      ct.id ∈ l := by
    intro ct hct pe hpe hpel
    obtain ⟨u, hu, huid, hch⟩ := collectW_children hc pe hpel
    have humem : u ∈ tasks := by
      rcases hu with h1 | h1
      · exact hws u h1
      · exact h1
    obtain ⟨pt, hpt, hptid, hcount⟩ := hb.1 ct hct pe hpe
    have hupt : u = pt := id_inj hnd humem hpt (by rw [huid, hptid])
    have hmem : ct.id ∈ u.subtasks := by
      rw [hupt]
      exact List.count_pos_iff.mp (by rw [hcount]; exact Nat.one_pos)
    exact hch ct.id hmem ct (taskMapGet_self hnd hct)
  have hPar : ∀ e ∈ l, e = target.id ∨
      (∃ u pu, u ∈ tasks ∧ u.id = e ∧ u.parent_id = some pu ∧
        pu ∈ l) := by
    intro e hel
    rcases collectW_parent hnd hb hws hc e hel with ⟨w, hw, hwid⟩ | hr
    · left
      rcases List.mem_cons.mp hw with rfl | h0
      · exact hwid.symm
      · cases h0
    · exact Or.inr hr
  rcases hpt : pyTruthy target.parent_id with _ | p
  · have hTargetNot : ∀ x ∈ tasks, target.id ∉ x.subtasks := by
      intro x hx hmem
      obtain ⟨ct, hct, hctid, hctp⟩ := hb.2 x hx target.id hmem
      have hctt : ct = target := id_inj hnd hct htm hctid
      rw [hctt] at hctp
      rcases hopt : target.parent_id with _ | q
      · rw [hopt] at hctp; cases hctp
      · rw [hopt] at hpt hctp
        simp only [pyTruthy] at hpt
        by_cases hq : q = ""
        · injection hctp with hqid
          exact (hne x hx) (hqid ▸ hq)
        · rw [if_neg hq] at hpt; cases hpt
    show BidirInv (tasks.filter (fun t => !(l.dedup.contains t.id)))
    exact bidir_filter_removed hnd hb htid hA hPar
      (fun x hx => ⟨x, hx, rfl, rfl, Or.inl rfl⟩)
      (fun y hy => ⟨y, hy, rfl, rfl, Or.inl rfl⟩)
      hTargetNot
  · obtain ⟨hopt, hpne⟩ := pyTruthy_eq_some hpt
    obtain ⟨pt0, hpt0, hpt0id, hcount0⟩ := hb.1 target htm p hopt
    have hcid : target.id ∈ pt0.subtasks :=
      List.count_pos_iff.mp (by rw [hcount0]; exact Nat.one_pos)
    have hBeq : removeFromParent p target.id tasks =
        replaceFirst tasks pt0
          { pt0 with subtasks := pt0.subtasks.erase target.id } :=
      removeFromParent_of_parent hnd hpt0 hpt0id hcid
    have hTargetNot : ∀ x ∈ removeFromParent p target.id tasks,
        target.id ∉ x.subtasks := by
      rw [hBeq]
      intro x hx hmem
      rcases replaceFirst_mem_nodup (nodup_tasks_of_ids hnd) hpt0 x hx
        with rfl | ⟨hxm, hxne⟩
      · have hz : (pt0.subtasks.erase target.id).count target.id = 0 := by
          rw [List.count_erase_self, hcount0]
        have hpos : 0 < (pt0.subtasks.erase target.id).count target.id :=
          List.count_pos_iff.mpr hmem
        omega
      · obtain ⟨ct, hct, hctid, hctp⟩ := hb.2 x hxm target.id hmem
        have hctt : ct = target := id_inj hnd hct htm hctid
        rw [hctt, hopt] at hctp
        injection hctp with hpp
        exact hxne (id_inj hnd hxm hpt0 (by rw [← hpp, hpt0id]))
    show BidirInv ((removeFromParent p target.id tasks).filter
      (fun t => !(l.dedup.contains t.id)))
    exact bidir_filter_removed hnd hb htid hA hPar
      (fun x hx => removeFromParent_mem x hx)
      (fun y hy => removeFromParent_core y hy)
      hTargetNot

/-- Claim C6: every successful TaskService mutation applied to a
collection with unique non-empty ids satisfying the bidirectional
parent/child invariant yields a collection still satisfying it (for
add_task the generated id must be fresh, which uuid4 provides). -/
theorem c6_bidir_preservation (tasks : List Task)
    (hnd : NodupIds tasks) (hne : IdsNonempty tasks) (hb : BidirInv tasks) :
    (∀ freshId freshTime d pr parent_id ts2 t2,
      freshId ∉ tasks.map Task.id →
      add_task freshId freshTime d pr parent_id tasks = .ok (ts2, t2) →
      BidirInv ts2) ∧
    (∀ s ts2 t2, complete_task s tasks = .ok (ts2, t2) → BidirInv ts2) ∧
    (∀ s ts2 t2, uncomplete_task s tasks = .ok (ts2, t2) →
      BidirInv ts2) ∧
    (∀ s p ts2 t2, set_priority s p tasks = .ok (ts2, t2) →
      BidirInv ts2) ∧
    (∀ s ts2 n, remove_task s tasks = .ok (ts2, n) → BidirInv ts2) := by
  refine ⟨?_, ?_, ?_, ?_, ?_⟩
  · intro freshId freshTime d pr parent_id ts2 t2 hfresh hok
    obtain ⟨hid, hst, hcase⟩ := add_ok_shape hok
    rcases hcase with ⟨hpid, hts⟩ | ⟨parent, hpmem, hpid, hcase2⟩
    · subst hts
      exact bidir_append_root hb hpid hst
    · rcases hcase2 with ⟨hpe, _⟩ | ⟨hpe, hts⟩
      · exact absurd hpe (hne parent hpmem)
      · subst hts
        exact bidir_add_child hnd hb hpmem (by rw [hid]; exact hfresh)
          hpid hst
  · intro s ts2 t2 hok
    obtain ⟨t, _, ht2, hts⟩ := complete_ok_shape hok
    subst hts
    exact bidir_congr (replaceFirst_forall₂ (by rw [ht2]) (by rw [ht2])
      (by rw [ht2]) tasks) hb
  · intro s ts2 t2 hok
    obtain ⟨t, _, ht2, hts⟩ := uncomplete_ok_shape hok
    subst hts
    exact bidir_congr (replaceFirst_forall₂ (by rw [ht2]) (by rw [ht2])
      (by rw [ht2]) tasks) hb
  · intro s p ts2 t2 hok
    obtain ⟨t, _, ht2, hts⟩ := set_priority_ok_shape hok
    subst hts
    exact bidir_congr (replaceFirst_forall₂ (by rw [ht2]) (by rw [ht2])
      (by rw [ht2]) tasks) hb
  · intro s ts2 n hok
    obtain ⟨target, l, hf, hc, hn, hts⟩ := remove_ok_shape hok
    subst hts
    exact bidir_remove hnd hne hb (find_task_mem hf) hc

/-- Witness for c6_bidir_preservation: removing the child from the
two-level fixture keeps the invariant on the surviving collection. -/
theorem c6_bidir_preservation_witness :
    NodupIds [fxRoot, fxChild] ∧ IdsNonempty [fxRoot, fxChild] ∧
    BidirInv [fxRoot, fxChild] ∧
    BidirInv [{ fxRoot with subtasks := [] }] :=
  ⟨by decide, by decide, by decide,
   (c6_bidir_preservation [fxRoot, fxChild] (by decide) (by decide)
     (by decide)).2.2.2.2 "cccccccc-0002" [{ fxRoot with subtasks := [] }]
     1 (by decide)⟩

/-! Ancestor-chain machinery for the cascading-delete count. -/

theorem UpChain.trans {tasks : List Task} {a b c : String}
    (h1 : UpChain tasks a b) (h2 : UpChain tasks b c) :
    UpChain tasks a c := by
  induction h1 with
  | refl => exact h2
  | step hget hp _ ih => exact UpChain.step hget hp (ih h2)

theorem ancWalkB_succ (tasks : List Task) (f : Nat) (cur target : String) :
    ancWalkB tasks (f + 1) cur target =
      (cur == target ||
        match taskMapGet tasks cur with
        | none => false
        | some t =>
          match t.parent_id with
          | none => false
          | some p => ancWalkB tasks f p target) := rfl

/-- Soundness of the bounded ancestor walk. -/
theorem ancWalkB_sound {tasks : List Task} :
    ∀ {fuel : Nat} {cur target : String},
      ancWalkB tasks fuel cur target = true → UpChain tasks cur target := by
  intro fuel
  induction fuel with
  | zero => intro cur target h; cases h
  | succ f ih =>
    intro cur target h
    rw [ancWalkB_succ] at h
    rcases Bool.or_eq_true_iff.mp h with he | hrest
    · have : cur = target := by simpa using he
      rw [this]
      exact UpChain.refl target
    · rcases hget : taskMapGet tasks cur with _ | u
      · rw [hget] at hrest; cases hrest
      · simp only [hget] at hrest
        rcases hp : u.parent_id with _ | p
        · simp only [hp] at hrest; cases hrest
        · simp only [hp] at hrest
          exact UpChain.step hget hp (ih hrest)

/-- Along a chain the rank never increases, and strictly decreases to a
different endpoint. -/
theorem upChain_rank {tasks : List Task} {rk : String → Nat}
    (hrk : ParentRanked tasks rk) {c a : String}
    (h : UpChain tasks c a) : a = c ∨ rk a < rk c := by
  induction h with
  | refl => exact Or.inl rfl
  | step hget hp hrest ih =>
    obtain ⟨humem, huid⟩ := taskMapGet_mem hget
    rename_i c2 p2 a2 u2
    have hlt : rk p2 < rk c2 := huid ▸ hrk u2 humem p2 hp
    rcases ih with rfl | hlt2
    · exact Or.inr hlt
    · exact Or.inr (by omega)

theorem countP_lt_of_mem {l : List Task} {P Q : Task → Bool}
    (hsub : ∀ x ∈ l, P x = true → Q x = true) {x0 : Task} (hx0 : x0 ∈ l)
    (hQ : Q x0 = true) (hP : ¬ P x0 = true) :
    l.countP P < l.countP Q := by
  induction l with
  | nil => cases hx0
  | cons y rest ih =>
    have hsub2 : ∀ x ∈ rest, P x = true → Q x = true :=
      fun x hx => hsub x (List.mem_cons_of_mem _ hx)
    rcases List.mem_cons.mp hx0 with rfl | hx2
    · rw [List.countP_cons_of_neg P rest (by simpa using hP),
        List.countP_cons_of_pos Q rest hQ]
      have := List.countP_mono_left hsub2
      omega
    · have hlt := ih hsub2 hx2
      by_cases hPy : P y = true
      · rw [List.countP_cons_of_pos P rest hPy,
          List.countP_cons_of_pos Q rest (hsub y (List.mem_cons_self _ _)
            hPy)]
        omega
      · rw [List.countP_cons_of_neg P rest (by simpa using hPy)]
        by_cases hQy : Q y = true
        · rw [List.countP_cons_of_pos Q rest hQy]; omega
        · rw [List.countP_cons_of_neg Q rest (by simpa using hQy)]; omega

/-- Completeness of the bounded walk: a chain is found whenever the fuel
exceeds the number of tasks whose rank does not exceed the start. -/
theorem ancWalkB_complete {tasks : List Task} {rk : String → Nat}
    (hrk : ParentRanked tasks rk) :
    ∀ {c a : String}, UpChain tasks c a →
      ∀ fuel, tasks.countP (fun v => decide (rk v.id ≤ rk c)) < fuel →
        ancWalkB tasks fuel c a = true := by
  intro c a h
  induction h with
  | refl =>
    intro fuel hfuel
    cases fuel with
    | zero => omega
    | succ f =>
      rw [ancWalkB_succ]
      simp
  | step hget hp hrest ih =>
    rename_i c2 p2 a2 u2
    intro fuel hfuel
    cases fuel with
    | zero => omega
    | succ f =>
      rw [ancWalkB_succ]
      obtain ⟨humem, huid⟩ := taskMapGet_mem hget
      have hlt : rk p2 < rk c2 := huid ▸ hrk u2 humem p2 hp
      have hmono : tasks.countP (fun v => decide (rk v.id ≤ rk p2)) <
          tasks.countP (fun v => decide (rk v.id ≤ rk c2)) := by
        apply @countP_lt_of_mem _ _ _ ?_ u2 humem
          (by simp [huid]) (by simp [huid]; omega)
        intro x _ hx
        simp only [decide_eq_true_eq] at hx ⊢
        omega
      have hrec := ih f (by omega)
      simp only [hget, hp, hrec]
      simp

/-- Every collected id carries a task of the collection whose ancestor
chain passes through the removal target. -/
theorem collect_mem_upchain {tasks : List Task} {target : Task}
    {l : List String} {rk : String → Nat} (hnd : NodupIds tasks)
    (hb : BidirInv tasks) (hrk : ParentRanked tasks rk)
    (htm : target ∈ tasks)
    (hc : collectW tasks (tasks.length + 1) [target] = some l) :
    ∀ e ∈ l, ∃ dt, dt ∈ tasks ∧ dt.id = e ∧
      UpChain tasks e target.id := by
  have hws : ∀ w ∈ [target], w ∈ tasks := by
    intro w hw
    rcases List.mem_cons.mp hw with rfl | h0
    · exact htm
    · cases h0
  have main : ∀ n, ∀ e ∈ l, rk e < n → ∃ dt, dt ∈ tasks ∧ dt.id = e ∧
      UpChain tasks e target.id := by
    intro n
    induction n with
    | zero => intro e _ hlt; omega
    | succ m ih =>
      intro e hel hlt
      rcases collectW_parent hnd hb hws hc e hel
        with ⟨w, hw, hwid⟩ | ⟨u, pu, hu, huid, hup, hpul⟩
      · rcases List.mem_cons.mp hw with hwt | h0
        · rw [hwt] at hwid
          subst hwid
          exact ⟨target, htm, rfl, UpChain.refl _⟩
        · cases h0
      · have hplt : rk pu < rk e := huid ▸ hrk u hu pu hup
        obtain ⟨dt2, hdt2, hdtid2, hchain2⟩ := ih pu hpul (by omega)
        have hgete : taskMapGet tasks e = some u := by
          have := taskMapGet_self hnd hu
          rw [huid] at this
          exact this
        exact ⟨u, hu, huid, UpChain.step hgete hup hchain2⟩
  intro e hel
  exact main (rk e + 1) e hel (by omega)

/-- Collected ids are downward closed along chains: whatever reaches a
collected id is collected. -/
theorem upchain_to_collect {tasks : List Task} {target : Task}
    {l : List String} (hnd : NodupIds tasks) (hb : BidirInv tasks)
    (htm : target ∈ tasks)
    (hc : collectW tasks (tasks.length + 1) [target] = some l) :
    ∀ {a b : String}, UpChain tasks a b → b ∈ l → a ∈ l := by
  intro a b hch
  induction hch with
  | refl => exact id
  | step hget hp hrest ih =>
    rename_i c2 p2 a2 u2
    intro hbl
    have hpl : p2 ∈ l := ih hbl
    obtain ⟨humem, huid⟩ := taskMapGet_mem hget
    obtain ⟨pt, hpt, hptid, hcount⟩ := hb.1 u2 humem p2 hp
    obtain ⟨u3, hu3, hu3id, hch3⟩ := collectW_children hc p2 hpl
    have hu3mem : u3 ∈ tasks := by
      rcases hu3 with h1 | h1
      · rcases List.mem_cons.mp h1 with rfl | h0
        · exact htm
        · cases h0
      · exact h1
    have hu3pt : u3 = pt := id_inj hnd hu3mem hpt (by rw [hu3id, hptid])
    have hsid : u2.id ∈ u3.subtasks := by
      rw [hu3pt]
      exact List.count_pos_iff.mp (by rw [hcount]; exact Nat.one_pos)
    have := hch3 u2.id hsid u2 (taskMapGet_self hnd humem)
    rw [huid] at this
    exact this

/-- Under the bidirectional invariant a subtasks list has no duplicate
entries. -/
theorem subtasks_nodup {tasks : List Task} (hnd : NodupIds tasks)
    (hb : BidirInv tasks) {t : Task} (ht : t ∈ tasks) :
    t.subtasks.Nodup := by
  rw [List.nodup_iff_count_le_one]
  intro a
  by_cases ha : a ∈ t.subtasks
  · obtain ⟨ct, hct, hctid, hctp⟩ := hb.2 t ht a ha
    obtain ⟨pt, hpt, hptid, hcount⟩ := hb.1 ct hct t.id hctp
    have : pt = t := id_inj hnd hpt ht hptid
    rw [← hctid, ← this]
    omega
  · rw [List.count_eq_zero.mpr ha]
    omega

/-- The resolvable children of a collection member are members whose
parent reference points back at it. -/
theorem children_facts {tasks : List Task} (hnd : NodupIds tasks)
    (hb : BidirInv tasks) {t : Task} (ht : t ∈ tasks) :
    ∀ c ∈ t.subtasks.filterMap (fun sid => taskMapGet tasks sid),
      c ∈ tasks ∧ c.parent_id = some t.id := by
  intro c hcm
  obtain ⟨sid, hsid, hget⟩ := List.mem_filterMap.mp hcm
  obtain ⟨hcmem, hcid⟩ := taskMapGet_mem hget
  obtain ⟨ct, hct, hctid, hctp⟩ := hb.2 t ht sid hsid
  have : c = ct := id_inj hnd hcmem hct (by rw [hcid, hctid])
  exact ⟨hcmem, by rw [this]; exact hctp⟩

/-- The ids of the resolvable children form a sublist of the subtasks
list. -/
theorem children_ids_sublist (tasks : List Task) :
    ∀ sids : List String,
      List.Sublist
        ((sids.filterMap (fun sid => taskMapGet tasks sid)).map Task.id)
        sids := by
  intro sids
  induction sids with
  | nil => exact List.Sublist.refl _
  | cons sid rest ih =>
    rw [List.filterMap_cons]
    rcases hget : taskMapGet tasks sid with _ | u
    · exact ih.cons _
    · rw [List.map_cons, (taskMapGet_mem hget).2]
      exact ih.cons₂ _

/-- Chains out of two distinct children of the same parent are disjoint:
no task reaches both. -/
theorem siblings_disjoint {tasks : List Task} {rk : String → Nat}
    (hnd : NodupIds tasks) (hrk : ParentRanked tasks rk)
    {t c c2 : Task} (htm : t ∈ tasks) (hcm : c ∈ tasks) (hcm2 : c2 ∈ tasks)
    (hcp : c.parent_id = some t.id) (hcp2 : c2.parent_id = some t.id)
    (hne : c.id ≠ c2.id) :
    ∀ d ∈ tasks, ¬(UpChain tasks d.id c.id ∧ UpChain tasks d.id c2.id) := by
  have key : ∀ {a b : String}, UpChain tasks a b →
      ∀ {x y : Task}, x ∈ tasks → y ∈ tasks → a = x.id → b = y.id →
      x.parent_id = some t.id → y.parent_id = some t.id →
      x.id ≠ y.id → False := by
    intro a b hch
    cases hch with
    | refl =>
      intro x y hx hy ha hb hxp hyp hxyne
      exact hxyne (by rw [← ha, hb])
    | step hget hp hrest =>
      rename_i p2 u2
      intro x y hx hy ha hb hxp hyp hxyne
      rw [ha] at hget
      have hux : u2 = x := by
        obtain ⟨hum, huid⟩ := taskMapGet_mem hget
        exact id_inj hnd hum hx huid
      rw [hux, hxp] at hp
      injection hp with hp
      subst hp
      rw [hb] at hrest
      rcases upChain_rank hrk hrest with he | hlt
      · have hyt : y = t := id_inj hnd hy htm he
        rw [hyt] at hyp
        have := hrk t htm t.id hyp
        omega
      · have := hrk y hy t.id hyp
        omega
  -- linearity of chains from a common start
  have linear : ∀ {d a b : String}, UpChain tasks d a → UpChain tasks d b →
      UpChain tasks a b ∨ UpChain tasks b a := by
    intro d a b h1
    induction h1 with
    | refl => intro h2; exact Or.inl h2
    | step hget hp hrest ih =>
      intro h2
      cases h2 with
      | refl => exact Or.inr (UpChain.step hget hp hrest)
      | step hget2 hp2 hrest2 =>
        have hu : _ = _ := hget.symm.trans hget2
        injection hu with hu
        subst hu
        have hpq : _ = _ := hp.symm.trans hp2
        injection hpq with hpq
        subst hpq
        exact ih hrest2
  rintro d - ⟨h1, h2⟩
  rcases linear h1 h2 with hch | hch
  · exact key hch hcm hcm2 rfl rfl hcp hcp2 hne
  · exact key hch hcm2 hcm rfl rfl hcp2 hcp (fun he => hne he.symm)

/-- Fuel sufficiency for the subtree collection: in an invariant,
rank-certified collection every task is expanded at most once, so any
fuel exceeding the number of remaining candidate tasks suffices.  The
`avail` list tracks the tasks that may still be expanded. -/
theorem collectW_success {tasks : List Task} {rk : String → Nat}
    (hnd : NodupIds tasks) (hb : BidirInv tasks)
    (hrk : ParentRanked tasks rk) :
    ∀ (fuel : Nat) (avail ws : List Task),
      (∀ w ∈ ws, w ∈ tasks) →
      (∀ d ∈ tasks, ∀ w ∈ ws, UpChain tasks d.id w.id → d ∈ avail) →
      List.Pairwise (fun w w2 => ∀ d ∈ tasks,
        ¬(UpChain tasks d.id w.id ∧ UpChain tasks d.id w2.id)) ws →
      avail.length < fuel →
      ∃ l, collectW tasks fuel ws = some l := by
  intro fuel
  induction fuel with
  | zero => intro avail ws _ _ _ h; omega
  | succ f ih =>
    intro avail ws hsub hcl hdis hlen
    cases ws with
    | nil => exact ⟨[], collectW_nil tasks _⟩
    | cons t rest =>
      have htm : t ∈ tasks := hsub t (List.mem_cons_self _ _)
      have htavail : t ∈ avail :=
        hcl t htm t (List.mem_cons_self _ _) (UpChain.refl _)
      have hchild := children_facts hnd hb htm
      have hext : ∀ d c,
          c ∈ t.subtasks.filterMap (fun sid => taskMapGet tasks sid) →
          UpChain tasks d c.id → UpChain tasks d t.id := by
        intro d c hc hchain
        obtain ⟨hcm, hcp⟩ := hchild c hc
        exact hchain.trans
          (UpChain.step (taskMapGet_self hnd hcm) hcp (UpChain.refl _))
      have hnott : ∀ c ∈ t.subtasks.filterMap
          (fun sid => taskMapGet tasks sid),
          ¬ UpChain tasks t.id c.id := by
        intro c hc hchain
        obtain ⟨hcm, hcp⟩ := hchild c hc
        rcases upChain_rank hrk hchain with he | hlt
        · have hct : c = t := id_inj hnd hcm htm he
          rw [hct] at hcp
          have := hrk t htm t.id hcp
          omega
        · have := hrk c hcm t.id hcp
          omega
      have hsub2 : ∀ w ∈ t.subtasks.filterMap
          (fun sid => taskMapGet tasks sid) ++ rest, w ∈ tasks := by
        intro w hw
        rcases List.mem_append.mp hw with h1 | h1
        · exact (hchild w h1).1
        · exact hsub w (List.mem_cons_of_mem _ h1)
      have hdis1 := (List.pairwise_cons.mp hdis).1
      have hdisrest := (List.pairwise_cons.mp hdis).2
      have hcl2 : ∀ d ∈ tasks, ∀ w ∈ t.subtasks.filterMap
          (fun sid => taskMapGet tasks sid) ++ rest,
          UpChain tasks d.id w.id → d ∈ avail.erase t := by
        intro d hd w hw hchain
        rcases List.mem_append.mp hw with h1 | h1
        · have hdt : UpChain tasks d.id t.id := hext _ w h1 hchain
          have hdavail : d ∈ avail :=
            hcl d hd t (List.mem_cons_self _ _) hdt
          have hdne : d ≠ t := by
            rintro rfl
            exact hnott w h1 hchain
          exact (List.mem_erase_of_ne hdne).mpr hdavail
        · have hdavail : d ∈ avail :=
            hcl d hd w (List.mem_cons_of_mem _ h1) hchain
          have hdne : d ≠ t := by
            rintro rfl
            exact hdis1 w h1 d htm ⟨UpChain.refl _, hchain⟩
          exact (List.mem_erase_of_ne hdne).mpr hdavail
      have hdis2 : List.Pairwise (fun w w2 => ∀ d ∈ tasks,
          ¬(UpChain tasks d.id w.id ∧ UpChain tasks d.id w2.id))
          (t.subtasks.filterMap (fun sid => taskMapGet tasks sid) ++
            rest) := by
        rw [List.pairwise_append]
        refine ⟨?_, hdisrest, ?_⟩
        · have hidsnd : ((t.subtasks.filterMap
              (fun sid => taskMapGet tasks sid)).map Task.id).Nodup :=
            (children_ids_sublist tasks t.subtasks).nodup
              (subtasks_nodup hnd hb htm)
          have hpw := List.pairwise_map.mp hidsnd
          refine hpw.imp_of_mem ?_
          intro a b ha hb2 hne
          exact siblings_disjoint hnd hrk htm (hchild a ha).1
            (hchild b hb2).1 (hchild a ha).2 (hchild b hb2).2 hne
        · intro c hc w2 hw2 d hd hcontra
          obtain ⟨h1, h2⟩ := hcontra
          exact hdis1 w2 hw2 d hd ⟨hext _ c hc h1, h2⟩
      have hlen2 : (avail.erase t).length < f := by
        rw [List.length_erase_of_mem htavail]
        have := List.length_pos_of_mem htavail
        omega
      obtain ⟨l2, hl2⟩ := ih (avail.erase t)
        (t.subtasks.filterMap (fun sid => taskMapGet tasks sid) ++ rest)
        hsub2 hcl2 hdis2 hlen2
      refine ⟨t.id :: l2, ?_⟩
      rw [collectW_succ, hl2]

theorem length_eq_of_nodup_mem_iff {l1 l2 : List String}
    (h1 : l1.Nodup) (h2 : l2.Nodup) (hm : ∀ a, a ∈ l1 ↔ a ∈ l2) :
    l1.length = l2.length := by
  have hs1 : List.Subperm l1 l2 := h1.subperm (fun a ha => (hm a).mp ha)
  have hs2 : List.Subperm l2 l1 := h2.subperm (fun a ha => (hm a).mpr ha)
  exact Nat.le_antisymm hs1.length_le hs2.length_le

/-- Claim C4 counterexample: removing a task whose id shares its first 8
characters with a surviving task reports the right count and deletes the
task, yet find_task on the removed id still resolves  -  to the surviving
task, via the prefix match.  The claim as stated says none of the removed
ids resolve via find_task. -/
theorem c4_prefix_resolution_cex :
    remove_task fxA.id [fxA, fxB] = .ok ([fxB], 1) ∧
    find_task fxA.id [fxB] = .ok (some fxB) ∧ fxA.id ≠ fxB.id := by
  decide

/-- Claim C4 amended: in a collection satisfying the structural
invariants (unique non-empty ids, bidirectional links, acyclicity
witnessed by a rank), remove_task on a member reports exactly the size
of its subtree (the task plus its k descendants), afterwards no
surviving task bears a removed id (so exact resolution fails), the
former parent's subtasks list no longer contains the removed id, and a
removed id resolves to not-found via find_task PROVIDED no surviving
task shares its 8-character prefix  -  with such a collision find_task can
still return the surviving task, as the counterexample shows. -/
theorem c4_amended (tasks : List Task) (target : Task)
    (hnd : NodupIds tasks) (hne : IdsNonempty tasks) (hb : BidirInv tasks)
    (hrke : ∃ rk, ParentRanked tasks rk) (htm : target ∈ tasks) :
    ∃ ts2, remove_task target.id tasks =
        .ok (ts2,
          (tasks.filter (fun d => inSubtreeB tasks target.id d)).length) ∧
      (∀ d ∈ tasks, inSubtreeB tasks target.id d = true →
        ∀ u ∈ ts2, u.id ≠ d.id) ∧
      (∀ d ∈ tasks, inSubtreeB tasks target.id d = true →
        (∀ u ∈ ts2, ¬ startsWithList (pyTake d.id 8).data u.id.data) →
        find_task d.id ts2 = .ok none) ∧
      (∀ p, target.parent_id = some p → ∀ u ∈ ts2, u.id = p →
        target.id ∉ u.subtasks) := by
  obtain ⟨rk, hrk⟩ := hrke
  have hws0 : ∀ w ∈ ([target] : List Task), w ∈ tasks := by
    intro w hw
    rcases List.mem_cons.mp hw with hwt | h0
    · rw [hwt]; exact htm
    · cases h0
  obtain ⟨l, hc⟩ := collectW_success hnd hb hrk (tasks.length + 1) tasks
    [target] hws0 (fun d hd _ _ _ => hd) (List.pairwise_singleton _ _)
    (by omega)
  have hf : find_task target.id tasks = .ok (some target) :=
    find_task_exact hnd htm
  have htidl : target.id ∈ l :=
    collectW_mem hc target (List.mem_cons_self _ _)
  have hmem1 := collect_mem_upchain hnd hb hrk htm hc
  have hsub_iff : ∀ dt, dt ∈ tasks →
      (inSubtreeB tasks target.id dt = true ↔
        UpChain tasks dt.id target.id) := by
    intro dt hdt
    constructor
    · exact fun h => ancWalkB_sound h
    · intro h
      refine ancWalkB_complete hrk h (tasks.length + 1) ?_
      have := @List.countP_le_length Task
        (fun v => decide (rk v.id ≤ rk dt.id)) tasks
      omega
  have hmemiff : ∀ e, e ∈ l.dedup ↔
      e ∈ (tasks.filter
        (fun d => inSubtreeB tasks target.id d)).map Task.id := by
    intro e
    rw [List.mem_dedup]
    constructor
    · intro hel
      obtain ⟨dt, hdt, hdtid, hchain⟩ := hmem1 e hel
      have hpred : inSubtreeB tasks target.id dt = true :=
        (hsub_iff dt hdt).mpr (by rw [hdtid]; exact hchain)
      exact hdtid ▸ List.mem_map_of_mem Task.id
        (List.mem_filter.mpr ⟨hdt, hpred⟩)
    · intro hem
      obtain ⟨dt, hdtf, hdtid⟩ := List.mem_map.mp hem
      obtain ⟨hdt, hpred⟩ := List.mem_filter.mp hdtf
      have hchain : UpChain tasks dt.id target.id :=
        (hsub_iff dt hdt).mp hpred
      rw [← hdtid]
      exact upchain_to_collect hnd hb htm hc hchain htidl
  have hcnt : l.dedup.length =
      (tasks.filter (fun d => inSubtreeB tasks target.id d)).length := by
    rw [← List.length_map
      (tasks.filter (fun d => inSubtreeB tasks target.id d)) Task.id]
    refine length_eq_of_nodup_mem_iff l.nodup_dedup ?_ hmemiff
    exact ((List.filter_sublist tasks).map Task.id).nodup hnd
  have hrt : remove_task target.id tasks = .ok
      (((match pyTruthy target.parent_id with
        | none => tasks
        | some p => removeFromParent p target.id tasks).filter
          (fun t => !(l.dedup.contains t.id))),
        l.dedup.length) := by
    unfold remove_task
    simp only [hf, Bind.bind, Except.bind]
    rw [hc]
  have hBids : ∀ x ∈ (match pyTruthy target.parent_id with
      | none => tasks
      | some p => removeFromParent p target.id tasks),
      ∃ y ∈ tasks, x.id = y.id := by
    rcases pyTruthy target.parent_id with _ | p
    · exact fun x hx => ⟨x, hx, rfl⟩
    · intro x hx
      obtain ⟨y, hy, hyid, -, -⟩ := removeFromParent_mem x hx
      exact ⟨y, hy, hyid⟩
  have hsurv : ∀ u, u ∈ (match pyTruthy target.parent_id with
      | none => tasks
      | some p => removeFromParent p target.id tasks).filter
        (fun t : Task => !(l.dedup.contains t.id)) → u.id ∉ l := by
    intro u hu
    have hupred := (List.mem_filter.mp hu).2
    intro hul
    have hcontains : l.dedup.contains u.id = true :=
      List.elem_iff.mpr (List.mem_dedup.mpr hul)
    rw [hcontains] at hupred
    simp at hupred
  have hgone : ∀ d ∈ tasks, inSubtreeB tasks target.id d = true →
      ∀ u ∈ (match pyTruthy target.parent_id with
        | none => tasks
        | some p => removeFromParent p target.id tasks).filter
          (fun t : Task => !(l.dedup.contains t.id)), u.id ≠ d.id := by
    intro d hd hpred u hu he
    have hdl : d.id ∈ l :=
      upchain_to_collect hnd hb htm hc ((hsub_iff d hd).mp hpred) htidl
    exact hsurv u hu (he ▸ hdl)
  refine ⟨_, by rw [hrt, hcnt], hgone, ?_, ?_⟩
  · intro d hd hpred hnopfx
    unfold find_task
    have hfe : ((match pyTruthy target.parent_id with
        | none => tasks
        | some p => removeFromParent p target.id tasks).filter
          (fun t : Task => !(l.dedup.contains t.id))).find?
        (fun u : Task => u.id == d.id) = none :=
      List.find?_eq_none.mpr
        (fun u hu => by simpa using hgone d hd hpred u hu)
    rw [hfe]
    by_cases h8 : 8 ≤ pyLen d.id
    · rw [if_pos h8]
      have hfil : ((match pyTruthy target.parent_id with
          | none => tasks
          | some p => removeFromParent p target.id tasks).filter
            (fun t : Task => !(l.dedup.contains t.id))).filter
          (fun u : Task => startsWithList (pyTake d.id 8).data u.id.data) = [] :=
        List.filter_eq_nil_iff.mpr
          (fun u hu => by simpa using hnopfx u hu)
      rw [hfil]
      rfl
    · rw [if_neg h8]
  · intro p hp u hu hup
    obtain ⟨pt0, hpt0, hpt0id, hcount0⟩ := hb.1 target htm p hp
    have hpne : p ≠ "" := hpt0id ▸ hne pt0 hpt0
    have hptt : pyTruthy target.parent_id = some p := by
      rw [hp]
      exact pyTruthy_some hpne
    have huB0 := (List.mem_filter.mp hu).1
    rw [hptt] at huB0
    have hcid : target.id ∈ pt0.subtasks :=
      List.count_pos_iff.mp (by rw [hcount0]; exact Nat.one_pos)
    have huB : u ∈ removeFromParent p target.id tasks := huB0
    rw [removeFromParent_of_parent hnd hpt0 hpt0id hcid] at huB
    rcases replaceFirst_mem_nodup (nodup_tasks_of_ids hnd) hpt0 u huB
      with rfl | ⟨hum, hune⟩
    · intro hmem
      have hz : (pt0.subtasks.erase target.id).count target.id = 0 := by
        rw [List.count_erase_self, hcount0]
      have hpos : 0 < (pt0.subtasks.erase target.id).count target.id :=
        List.count_pos_iff.mpr hmem
      omega
    · exact absurd (id_inj hnd hum hpt0 (by rw [hup, hpt0id])) hune

theorem c4_amended_witness :
    NodupIds [fxRoot, fxChild] ∧ IdsNonempty [fxRoot, fxChild] ∧
    BidirInv [fxRoot, fxChild] ∧
    ParentRanked [fxRoot, fxChild]
      (fun i => if i = "rrrrrrrr-0001" then 0 else 1) ∧
    fxRoot ∈ [fxRoot, fxChild] ∧
    (∃ ts2, remove_task fxRoot.id [fxRoot, fxChild] =
        .ok (ts2, (([fxRoot, fxChild]).filter
          (fun d => inSubtreeB [fxRoot, fxChild] fxRoot.id d)).length) ∧
      (∀ d ∈ [fxRoot, fxChild],
        inSubtreeB [fxRoot, fxChild] fxRoot.id d = true →
        ∀ u ∈ ts2, u.id ≠ d.id) ∧
      (∀ d ∈ [fxRoot, fxChild],
        inSubtreeB [fxRoot, fxChild] fxRoot.id d = true →
        (∀ u ∈ ts2, ¬ startsWithList (pyTake d.id 8).data u.id.data) →
        find_task d.id ts2 = .ok none) ∧
      (∀ p, fxRoot.parent_id = some p → ∀ u ∈ ts2, u.id = p →
        fxRoot.id ∉ u.subtasks)) :=
  ⟨by decide, by decide, by decide, by decide, by decide,
   c4_amended [fxRoot, fxChild] fxRoot (by decide) (by decide) (by decide)
     ⟨fun i => if i = "rrrrrrrr-0001" then 0 else 1, by decide⟩ (by decide)⟩

end Task5
